import Mathlib

/-!
DomainPathCounter: URL domain / path counting and top-N ranking

A shallow embedding of `src/main.cpp` (class `DomainPathCounter` and the
default pattern `url_re` of `main`).

Conventions of the embedding

* `std::string` is `List Char`; one `Char` stands for one `char` of the string
  and characters are compared by their code, as `char_traits<char>` does.
* `size_t` counters are `Nat`: a counter is only ever incremented by one per
  matched url, so wrap-around would need `2^64` matches.
* `std::unordered_map<std::string, Count>` is a list of `(key, count)` entries
  without repeated keys; the list order stands for the (unspecified) iteration
  order of the hash table.
* `std::regex` is used by the class only through `std::sregex_iterator` and
  `match.format`; a pattern is therefore the function that maps a line to the
  sequence of `($2, $3)` texts of its successive matches.
-/

set_option autoImplicit false

namespace DomainPathCounter

/-! ## Types of the class -/

/-- The type `Count` of the class (`using Count = size_t`). -/
abbrev Count := Nat

/-- The type `CountElem` of the class (`std::pair<std::string, Count>`), with
`Count` written out as `Nat`. -/
abbrev CountElem := List Char × Nat

/-- The type `CountBuffer` of the class: the entries of the hash table in
iteration order. -/
abbrev CountBuffer := List CountElem

/-! ## The comparator of `GetTop` -/

/-- The member `std::string::compare`: the characters are compared one by one
by their code; when one string is a prefix of the other the shorter one is the
smaller. The result is negative, zero or positive. -/
def string_compare : List Char → List Char → Int
  | [], [] => 0
  | [], _ :: _ => -1
  | _ :: _, [] => 1
  | a :: as, b :: bs =>
    if a.toNat < b.toNat then -1
    else if b.toNat < a.toNat then 1
    else string_compare as bs

/-- The lambda `cmp` of `GetTop` (main.cpp, lines 107-114). -/
def cmp (in1 in2 : CountElem) : Bool :=
  if in1.2 = in2.2 then
    (if string_compare in1.1 in2.1 > 0 then true else false)
  else
    decide (in1.2 < in2.2)

/-! ## The heap algorithms of the standard library

`std::make_heap` and `std::pop_heap` are not part of the repository. They are
modelled by the textbook array algorithms that meet the effects the C++
standard gives for them: `make_heap` rearranges the range into a max-heap with
respect to `comp`, `pop_heap` swaps the first and the last element and makes the
range without its last element a heap again. The proofs about `GetTop` use
these effects only (`make_heap_isHeap`, `make_heap_perm`, `pop_heap_spec`). -/

section Heap

variable {α : Type}

/-- Exchange of the elements at positions `i` and `j` (`std::iter_swap`). -/
def iter_swap (h : List α) (i j : Nat) : List α :=
  match h[i]?, h[j]? with
  | some x, some y => (h.set i y).set j x
  | _, _ => h

/-- Sift the element at position `i` down until neither child is greater:
the element is exchanged with its greater child while `comp` says it is
smaller than that child. The first argument bounds the number of levels. -/
def adjust_heap (comp : α → α → Bool) : Nat → List α → Nat → List α
  | 0, h, _ => h
  | fuel + 1, h, i =>
    match h[i]?, h[2 * i + 1]?, h[2 * i + 2]? with
    | some x, some a, some b =>
      if comp a b then
        (if comp x b then adjust_heap comp fuel (iter_swap h i (2 * i + 2)) (2 * i + 2) else h)
      else
        (if comp x a then adjust_heap comp fuel (iter_swap h i (2 * i + 1)) (2 * i + 1) else h)
    | some x, some a, none =>
      if comp x a then adjust_heap comp fuel (iter_swap h i (2 * i + 1)) (2 * i + 1) else h
    | _, _, _ => h

/-- The loop of `std::make_heap`: the positions `k - 1, k - 2, ..., 0` are
sifted down in this order. -/
def make_heap_loop (comp : α → α → Bool) : Nat → List α → List α
  | 0, h => h
  | k + 1, h => make_heap_loop comp k (adjust_heap comp h.length h k)

/-- The algorithm `std::make_heap(first, last, comp)` on the whole vector:
every position that has a child, from the last one down to the root, is sifted
down. -/
def make_heap (comp : α → α → Bool) (h : List α) : List α :=
  make_heap_loop comp (h.length / 2) h

/-- The algorithm `std::pop_heap(first, last, comp)` on the whole vector: the
first and the last element are exchanged and the range without its last
element is made a heap again by sifting its new first element down. A range of
fewer than two elements is left as it is. -/
def pop_heap (comp : α → α → Bool) (h : List α) : List α :=
  if h.length < 2 then h
  else
    let s := iter_swap h 0 (h.length - 1)
    adjust_heap comp (h.length - 1) (s.take (h.length - 1)) 0 ++ s.drop (h.length - 1)

end Heap

/-! ## The ranker `GetTop` -/

/-- The extraction loop of `GetTop` (main.cpp, lines 125-129): `k` more rounds
of `top.push_back(heap.front()); pop_heap; heap.pop_back()`. The loop bound
`num_top` never exceeds `heap.size()`, so `front` is never taken of an empty
vector; the model leaves `top` as it is there. -/
def GetTop_loop : Nat → List CountElem → List CountElem → List CountElem
  | 0, _, top => top
  | k + 1, heap, top =>
    match heap.head? with
    | none => top
    | some front => GetTop_loop k (pop_heap cmp heap).dropLast (top ++ [front])

/-- The member function `GetTop` (main.cpp, lines 106-132), with the member
`n_top_` it reads as first argument. `buffer` lists the entries of the table in
the order the range-for loop visits them. -/
def GetTop (n_top_ : Nat) (buffer : CountBuffer) : List CountElem :=
  let heap := make_heap cmp buffer
  let num_top := min n_top_ heap.length
  GetTop_loop num_top heap []

/-! ## The aggregator: the two hash tables -/

/-- The statement `buffer[key]++` on a hash table: the count of an entry that
is present goes up by one, a key that is absent is entered with the count one
(`operator[]` enters it with the count zero, which `++` then raises). -/
def increment (key : List Char) : CountBuffer → CountBuffer
  | [] => [(key, 1)]
  | (k, c) :: rest =>
    if k = key then (k, c + 1) :: rest else (k, c) :: increment key rest

/-- The keys of a table. -/
def keys (buffer : CountBuffer) : List (List Char) := buffer.map Prod.fst

/-- The sum of the counts of a table. -/
def count_sum (buffer : CountBuffer) : Nat := (buffer.map Prod.snd).sum

/-! ## The pattern and the input stream -/

/-- The pattern `re_` as `FindDomainsAndNames` observes it: `re line` lists, for
the successive matches that `std::sregex_iterator` finds in `line`, the texts
`match.format("$2")` and `match.format("$3")`. The function gives the matches
that the matcher returns; the call stack that the matcher of the default
pattern needs on the way is described apart, by `url_re_nesting_at`. -/
abbrev Regex := List Char → List (List Char × List Char)

/-- The stream `std::stringstream ss(input_)`: the characters not read so far
and the state flags `eofbit` and `failbit`. -/
structure StringStream where
  buf : List Char
  eofbit : Bool
  failbit : Bool

/-- The characters `std::getline` extracts from a readable stream: the text
before the first newline together with what follows that newline, or the whole
rest and `none` when the end of the input is reached first. -/
def read_line : List Char → List Char × Option (List Char)
  | [] => ([], none)
  | c :: cs =>
    if c = '\n' then ([], some cs)
    else ((c :: (read_line cs).1), (read_line cs).2)

/-- The function `std::getline(ss, line)`. When the stream is not `good()` the
sentry fails: `failbit` is set and `line` keeps its old content. Otherwise
`line` is erased and filled up to the next newline (extracted, not stored) or
to the end of the input (`eofbit`); `failbit` is set when no character at all
was extracted. A string stream never sets `badbit`, and a line never reaches
`max_size()`. -/
def getline (ss : StringStream) (line : List Char) : StringStream × List Char :=
  if ss.eofbit || ss.failbit then
    ({ ss with failbit := true }, line)
  else
    match read_line ss.buf with
    | (l, some rest) => ({ ss with buf := rest }, l)
    | (l, none) => ({ buf := [], eofbit := true, failbit := l.isEmpty }, l)

end DomainPathCounter

/-- The data members of the class `DomainPathCounter` (main.cpp, lines 68-73). -/
structure DomainPathCounter where
  input_ : List Char
  re_ : DomainPathCounter.Regex
  n_top_ : Nat
  domains_ : DomainPathCounter.CountBuffer
  paths_ : DomainPathCounter.CountBuffer
  num_urls_ : Nat

namespace DomainPathCounter

/-- The default constructor `DomainPathCounter()`: empty input, a
default-constructed `std::regex` (it matches nothing), `n_top_ = 0`, empty
tables and `num_urls_ = 0`. -/
def empty : DomainPathCounter :=
  { input_ := [], re_ := fun _ => [], n_top_ := 0, domains_ := [], paths_ := [], num_urls_ := 0 }

/-- The constructor `DomainPathCounter(input, re, n_top)`. -/
def new (input : List Char) (re : Regex) (n_top : Nat) : DomainPathCounter :=
  { input_ := input, re_ := re, n_top_ := n_top, domains_ := [], paths_ := [], num_urls_ := 0 }

/-- The member function `Prepare` (main.cpp, lines 28-35). -/
def Prepare (_self : DomainPathCounter) (input : List Char) (re : Regex) (n_top : Nat) :
    DomainPathCounter :=
  { input_ := input, re_ := re, n_top_ := n_top, num_urls_ := 0, domains_ := [], paths_ := [] }

/-- The body of the inner loop of `FindDomainsAndNames` (lines 84-96) for one
match, given as its texts `$2` and `$3`. -/
def count_match (self : DomainPathCounter) (m : List Char × List Char) : DomainPathCounter :=
  let domain := m.1
  let path := if m.2.isEmpty || m.2 = [' '] then ['/'] else m.2
  { self with
    domains_ := increment domain self.domains_
    paths_ := increment path self.paths_
    num_urls_ := self.num_urls_ + 1 }

/-- The inner loop of `FindDomainsAndNames` (lines 81-97) over the matches of
one line. -/
def count_line (self : DomainPathCounter) (line : List Char) : DomainPathCounter :=
  (self.re_ line).foldl count_match self

/-- The outer loop `while (ss) { std::getline(ss, line); ... }` of
`FindDomainsAndNames` (lines 79-98). The first argument bounds the number of
rounds; `scan_fuel` rounds always reach the end of the loop. -/
def scan_loop : Nat → StringStream → List Char → DomainPathCounter → DomainPathCounter
  | 0, _, _, self => self
  | fuel + 1, ss, line, self =>
    if ss.failbit then self
    else
      let r := getline ss line
      scan_loop fuel r.1 r.2 (count_line self r.2)

/-- A number of rounds after which the loop of `FindDomainsAndNames` has ended:
every round but the last two extracts at least one character. -/
def scan_fuel (ss : StringStream) : Nat :=
  if ss.failbit then 0 else if ss.eofbit then 1 else ss.buf.length + 2

/-- The member function `FindDomainsAndNames` (main.cpp, lines 76-99). -/
def FindDomainsAndNames (self : DomainPathCounter) : DomainPathCounter :=
  let ss : StringStream := { buf := self.input_, eofbit := false, failbit := false }
  scan_loop (scan_fuel ss) ss [] self

/-- The lines `ss << elem.second << " " << elem.first << "\n"` for the entries
of a ranking. -/
def format_entries : List CountElem → List Char
  | [] => []
  | elem :: rest =>
    (Nat.repr elem.2).toList ++ [' '] ++ elem.1 ++ ['\n'] ++ format_entries rest

/-- The report text that `GetStats` writes (lines 43-57) from the three numbers
of the first line and the two rankings. -/
def format_report (num_urls domains paths : Nat) (top_domains top_paths : List CountElem) :
    List Char :=
  "total urls ".toList ++ (Nat.repr num_urls).toList ++ ", domains ".toList
    ++ (Nat.repr domains).toList ++ ", paths ".toList ++ (Nat.repr paths).toList ++ ['\n']
    ++ "\ntop domains\n".toList ++ format_entries top_domains
    ++ "\ntop paths\n".toList ++ format_entries top_paths

/-- The member function `GetStats` (main.cpp, lines 38-58): the state of the
object after the call and the report returned. -/
def GetStats (self : DomainPathCounter) : DomainPathCounter × List Char :=
  let s := FindDomainsAndNames self
  let top_domains := GetTop s.n_top_ s.domains_
  let top_paths := GetTop s.n_top_ s.paths_
  (s, format_report s.num_urls_ s.domains_.length s.paths_.length top_domains top_paths)

/-- The states an object of the class can be in: after either constructor,
and after any further call of `Prepare` or `GetStats`. -/
inductive Reachable : DomainPathCounter → Prop
  | empty : Reachable DomainPathCounter.empty
  | new (input : List Char) (re : Regex) (n_top : Nat) :
      Reachable (DomainPathCounter.new input re n_top)
  | Prepare (s : DomainPathCounter) (input : List Char) (re : Regex) (n_top : Nat) :
      Reachable s → Reachable (s.Prepare input re n_top)
  | GetStats (s : DomainPathCounter) : Reachable s → Reachable s.GetStats.1

/-! ## The default pattern `url_re` of `main` -/

/-- The class `\s` of the pattern in the "C" locale: space, `\t`, `\n`, `\v`,
`\f` and `\r`. -/
def isspace (c : Char) : Bool :=
  c = ' ' || (9 ≤ c.toNat && c.toNat ≤ 13)

/-- The letters and digits `a-zA-Z0-9` of both bracket expressions. -/
def is_alnum (c : Char) : Bool :=
  ('a'.toNat ≤ c.toNat && c.toNat ≤ 'z'.toNat) ||
  ('A'.toNat ≤ c.toNat && c.toNat ≤ 'Z'.toNat) ||
  ('0'.toNat ≤ c.toNat && c.toNat ≤ '9'.toNat)

/-- The bracket expression `[-a-zA-Z0-9\.-]` of the second group. -/
def is_domain_char (c : Char) : Bool :=
  c = '-' || is_alnum c || c = '.'

/-- The bracket expression `[-a-zA-Z0-9\.,/\+_]` of the third group. -/
def is_path_char (c : Char) : Bool :=
  c = '-' || is_alnum c || c = '.' || c = ',' || c = '/' || c = '+' || c = '_'

/-- The first group `(https?://)` matched at the start of `s`: what follows
it. The optional `s` is tried first. -/
def url_re_group1 (s : List Char) : Option (List Char) :=
  if "https://".toList.isPrefixOf s then some (s.drop 8)
  else if "http://".toList.isPrefixOf s then some (s.drop 7)
  else none

/-- The third group `(\s|$|/[-a-zA-Z0-9\.,/\+_]*)` matched at the start of `s`:
its text and what follows it. The alternatives are tried from left to right:
one white-space character, the end of the line, a slash with the longest run
of path characters. -/
def url_re_group3 : List Char → Option (List Char × List Char)
  | [] => some ([], [])
  | c :: cs =>
    if isspace c then some ([c], cs)
    else if c = '/' then some (c :: cs.takeWhile is_path_char, cs.dropWhile is_path_char)
    else none

/-- The second group `([-a-zA-Z0-9\.-]+)` followed by the third group, matched
at the start of `s`: the texts of both groups and what follows. The repetition
is greedy: one more character is tried first, and the third group is tried
where the repetition cannot be continued to a match. -/
def url_re_group2 : List Char → Option (List Char × List Char × List Char)
  | [] => none
  | c :: cs =>
    if is_domain_char c then
      match url_re_group2 cs with
      | some (d, p, r) => some (c :: d, p, r)
      | none =>
        match url_re_group3 cs with
        | some (p, r) => some ([c], p, r)
        | none => none
    else none

/-- The whole pattern matched at the start of `s`: the texts `$2` and `$3`, and
what follows the match. -/
def url_re_match (s : List Char) : Option (List Char × List Char × List Char) :=
  match url_re_group1 s with
  | some r => url_re_group2 r
  | none => none

/-- The iteration of `std::sregex_iterator` with the pattern `url_re`: the
leftmost match is searched, and the search goes on where that match ended.
The first argument bounds the number of steps; the length of the line is
enough, as every step drops at least one character. -/
def url_re_iter : Nat → List Char → List (List Char × List Char)
  | 0, _ => []
  | _ + 1, [] => []
  | fuel + 1, c :: cs =>
    match url_re_match (c :: cs) with
    | some (d, p, r) => (d, p) :: url_re_iter fuel r
    | none => url_re_iter fuel cs

/-- The pattern
`(https?://)([-a-zA-Z0-9\.-]+)(\s|$|/[-a-zA-Z0-9\.,/\+_]*)` of `main`
(main.cpp, lines 176-177). -/
def url_re : Regex := fun line => url_re_iter line.length line

/-! ## Specification predicates -/

section HeapSpec

variable {α : Type}

/-- The element at position `j` is not greater than its parent. -/
def EdgeOK (comp : α → α → Bool) (h : List α) (j : Nat) : Prop :=
  ∀ x y, h[(j - 1) / 2]? = some x → h[j]? = some y → comp x y = false

/-- The heap property of `std::is_heap`: no element is greater than its parent. -/
def IsHeap (comp : α → α → Bool) (h : List α) : Prop :=
  ∀ j, 0 < j → EdgeOK comp h j

/-- The state of the heap while the element at `c` is sifted down: below the
position `k` nothing is required, every other edge that does not start at `c`
is in order, and the parent of `c` is not smaller than the children of `c`. -/
def SiftInv (comp : α → α → Bool) (k c : Nat) (h : List α) : Prop :=
  (∀ j, 0 < j → k ≤ (j - 1) / 2 → (j - 1) / 2 ≠ c → EdgeOK comp h j) ∧
  (0 < c → k ≤ (c - 1) / 2 → ∀ j, 0 < j → (j - 1) / 2 = c →
    ∀ x y, h[(c - 1) / 2]? = some x → h[j]? = some y → comp x y = false)

end HeapSpec

/-- The order in which `GetTop` lists entries: `a` may stand before `b` when
`cmp` does not say that `a` is smaller than `b`. -/
def cmp_ge (a b : CountElem) : Prop := cmp a b = false

instance cmp_ge_decidable : DecidableRel cmp_ge := fun a b => by
  unfold cmp_ge
  exact inferInstance

/-- The table entries in the order of `cmp`, greatest first. -/
def sorted_entries (buffer : CountBuffer) : List CountElem :=
  buffer.insertionSort cmp_ge


/-! ## Definitions used to state the properties of the object -/

/-- The normalisation of the path in `FindDomainsAndNames` (main.cpp, lines
89-91): the empty text and the single space become `/`. -/
def normalize_path (path : List Char) : List Char :=
  if path.isEmpty || path = [' '] then ['/'] else path

/-- The lookup `buffer.find(key)` of a hash table: the count stored for `key`,
or `none` when the key is absent. -/
def find : CountBuffer → List Char → Option Nat
  | [], _ => none
  | (k, c) :: rest, key => if k = key then some c else find rest key

/-- The number of times the string `k` occurs in the list `ks`. -/
def occurrences (k : List Char) : List (List Char) → Nat
  | [] => 0
  | x :: rest => (if x = k then 1 else 0) + occurrences k rest

/-- The values that `line` takes in the successive rounds of the loop
`while (ss) { std::getline(ss, line); ... }` of `FindDomainsAndNames`, in the
order of the rounds. The first argument bounds the number of rounds as in
`scan_loop`. -/
def scan_lines : Nat → StringStream → List Char → List (List Char)
  | 0, _, _ => []
  | fuel + 1, ss, line =>
    if ss.failbit then []
    else
      let r := getline ss line
      r.2 :: scan_lines fuel r.1 r.2

/-- The lines that `FindDomainsAndNames` scans for the text `input`. -/
def scanned_lines (input : List Char) : List (List Char) :=
  scan_lines (scan_fuel { buf := input, eofbit := false, failbit := false })
    { buf := input, eofbit := false, failbit := false } []

/-- The pairs (domain, path) that `FindDomainsAndNames` counts for the text
`input` and the pattern `re`, in the order in which it counts them: for every
scanned line and every match in it the text `$2` and the normalised text `$3`. -/
def extracted_pairs (re : Regex) (input : List Char) : List (List Char × List Char) :=
  ((scanned_lines input).flatMap re).map (fun m => (m.1, normalize_path m.2))

/-- The extraction loop of `GetTop` with the precondition of `heap.front()`,
`std::pop_heap` and `heap.pop_back()` made explicit: the result is `none` when
a round starts on an empty heap. -/
def GetTop_loop_checked : Nat → List CountElem → List CountElem → Option (List CountElem)
  | 0, _, top => some top
  | k + 1, heap, top =>
    match heap.head? with
    | none => none
    | some front => GetTop_loop_checked k (pop_heap cmp heap).dropLast (top ++ [front])

/-- The member function `GetTop` with the checked extraction loop. -/
def GetTop_checked (n_top_ : Nat) (buffer : CountBuffer) : Option (List CountElem) :=
  let heap := make_heap cmp buffer
  let num_top := min n_top_ heap.length
  GetTop_loop_checked num_top heap []

/-- The alternative the specification names for the ranker: all entries of the
table are sorted greatest first by the comparator `cmp` (a stable sort), and
the sorted list is cut after `min N size` entries. -/
def sort_and_truncate (n_top_ : Nat) (buffer : CountBuffer) : List CountElem :=
  (buffer.insertionSort cmp_ge).take (min n_top_ buffer.length)

/-- The text made of the given lines, each followed by a newline. -/
def join_lines : List (List Char) → List Char
  | [] => []
  | l :: rest => l ++ '\n' :: join_lines rest

/-- A line put together from its matches: for every match the text skipped
before it, the text of the first group, and the texts of the second and the
third group; `tail` is the text after the last match. -/
def assemble : List (List Char × List Char × List Char × List Char) → List Char → List Char
  | [], tail => tail
  | (gap, scheme, d, p) :: rest, tail => gap ++ scheme ++ d ++ p ++ assemble rest tail

/-! ## The stack use of the matcher of the standard library -/

theorem string_compare_swap (a b : List Char) :
    string_compare b a = - string_compare a b := by
  induction a generalizing b with
  | nil => cases b <;> simp [string_compare]
  | cons x xs ih =>
    cases b with
    | nil => simp [string_compare]
    | cons y ys =>
      simp only [string_compare]
      by_cases h1 : x.toNat < y.toNat
      · have h2 : ¬ y.toNat < x.toNat := by omega
        simp [h1, h2]
      · by_cases h2 : y.toNat < x.toNat
        · simp [h1, h2]
        · simp [h1, h2, ih]

theorem string_compare_eq_zero (a b : List Char) (h : string_compare a b = 0) : a = b := by
  induction a generalizing b with
  | nil => cases b <;> simp_all [string_compare]
  | cons x xs ih =>
    cases b with
    | nil => simp [string_compare] at h
    | cons y ys =>
      simp only [string_compare] at h
      by_cases h1 : x.toNat < y.toNat
      · simp [h1] at h
      · by_cases h2 : y.toNat < x.toNat
        · simp [h1, h2] at h
        · simp only [h1, h2, if_false] at h
          have hxy : x = y := by
            have e : x.toNat = y.toNat := by omega
            rw [← Char.ofNat_toNat x, ← Char.ofNat_toNat y, e]
          rw [hxy, ih ys h]

theorem string_compare_self (a : List Char) : string_compare a a = 0 := by
  have := string_compare_swap a a
  omega

theorem string_compare_trans (a b c : List Char)
    (h1 : string_compare a b < 0) (h2 : string_compare b c < 0) :
    string_compare a c < 0 := by
  induction a generalizing b c with
  | nil =>
    cases b with
    | nil => simp [string_compare] at h1
    | cons y ys =>
      cases c with
      | nil => simp [string_compare] at h2
      | cons z zs => simp [string_compare]
  | cons x xs ih =>
    cases b with
    | nil => simp [string_compare] at h1
    | cons y ys =>
      cases c with
      | nil => simp [string_compare] at h2
      | cons z zs =>
        simp only [string_compare] at h1 h2 ⊢
        by_cases hxy : x.toNat < y.toNat
        · by_cases hyz : y.toNat < z.toNat
          · have : x.toNat < z.toNat := by omega
            simp [this]
          · by_cases hzy : z.toNat < y.toNat
            · simp [hyz, hzy] at h2
            · have : x.toNat < z.toNat := by omega
              simp [this]
        · by_cases hyx : y.toNat < x.toNat
          · simp [hxy, hyx] at h1
          · simp only [hxy, hyx, if_false] at h1
            by_cases hyz : y.toNat < z.toNat
            · have : x.toNat < z.toNat := by omega
              simp [this]
            · by_cases hzy : z.toNat < y.toNat
              · simp [hyz, hzy] at h2
              · simp only [hyz, hzy, if_false] at h2
                have e1 : ¬ x.toNat < z.toNat := by omega
                have e2 : ¬ z.toNat < x.toNat := by omega
                simp only [e1, e2, if_false]
                exact ih ys zs h1 h2

theorem cmp_iff (x y : CountElem) :
    cmp x y = true ↔ x.2 < y.2 ∨ (x.2 = y.2 ∧ 0 < string_compare x.1 y.1) := by
  unfold cmp
  by_cases h : x.2 = y.2
  · simp [h]
  · simp [h]

/-- The comparator is asymmetric. -/
theorem cmp_asymm (x y : CountElem) (h : cmp x y = true) : cmp y x = false := by
  rw [Bool.eq_false_iff]
  intro h2
  rw [cmp_iff] at h h2
  have := string_compare_swap x.1 y.1
  omega

/-- The comparator is transitive. -/
theorem cmp_trans (x y z : CountElem) (h1 : cmp x y = true) (h2 : cmp y z = true) :
    cmp x z = true := by
  rw [cmp_iff] at h1 h2 ⊢
  rcases h1 with h1 | ⟨e1, s1⟩
  · rcases h2 with h2 | ⟨e2, _⟩
    · left; omega
    · left; omega
  · rcases h2 with h2 | ⟨e2, s2⟩
    · left; omega
    · right
      refine ⟨by omega, ?_⟩
      have a1 := string_compare_swap x.1 y.1
      have a2 := string_compare_swap y.1 z.1
      have a3 := string_compare_swap x.1 z.1
      have := string_compare_trans z.1 y.1 x.1 (by omega) (by omega)
      omega

/-- Two entries neither of which is smaller than the other are the same entry. -/
theorem cmp_antisymm (x y : CountElem) (h1 : cmp x y = false) (h2 : cmp y x = false) :
    x = y := by
  rw [Bool.eq_false_iff, Ne, cmp_iff] at h1 h2
  have hc : x.2 = y.2 := by omega
  have a1 := string_compare_swap x.1 y.1
  have hs : string_compare x.1 y.1 = 0 := by omega
  exact Prod.ext (string_compare_eq_zero _ _ hs) hc

/-- Not being smaller is transitive. -/
theorem cmp_ge_trans (x y z : CountElem) (h1 : cmp x y = false) (h2 : cmp y z = false) :
    cmp x z = false := by
  rw [Bool.eq_false_iff]
  intro h3
  by_cases hzy : cmp z y = true
  · have := cmp_trans x z y h3 hzy
    simp [this] at h1
  · have hzy2 : cmp z y = false := by simpa using hzy
    have e := cmp_antisymm y z h2 hzy2
    subst e
    simp [h3] at h1

/-! ## Correctness of the heap algorithms -/

section HeapLemmas

variable {α : Type}

theorem iter_swap_length (h : List α) (i j : Nat) :
    (iter_swap h i j).length = h.length := by
  unfold iter_swap
  split <;> simp

theorem getElem?_iter_swap (h : List α) (i j : Nat) (x y : α)
    (hi : h[i]? = some x) (hj : h[j]? = some y) (k : Nat) :
    (iter_swap h i j)[k]? = if k = j then some x else if k = i then some y else h[k]? := by
  have hil : i < h.length := by
    by_contra hc
    rw [List.getElem?_eq_none (by omega)] at hi
    cases hi
  have hjl : j < h.length := by
    by_contra hc
    rw [List.getElem?_eq_none (by omega)] at hj
    cases hj
  unfold iter_swap
  simp only [hi, hj]
  rw [List.getElem?_set, List.getElem?_set]
  by_cases e1 : k = j
  · subst e1
    simp [hjl]
  · by_cases e2 : k = i
    · subst e2
      have : ¬ j = k := fun e => e1 e.symm
      simp [this, hil, e1]
    · have n1 : ¬ j = k := fun e => e1 e.symm
      have n2 : ¬ i = k := fun e => e2 e.symm
      simp [n1, n2, e1, e2]

theorem set_perm_cons (t : List α) (j : Nat) (a y : α) (hj : t[j]? = some y) :
    List.Perm (y :: t.set j a) (a :: t) := by
  induction t generalizing j with
  | nil => simp at hj
  | cons b t ih =>
    cases j with
    | zero =>
      simp at hj
      subst hj
      simpa using List.Perm.swap a b t
    | succ j =>
      simp at hj
      simp only [List.set_cons_succ]
      exact ((List.Perm.swap b y _).trans ((ih j hj).cons b)).trans (List.Perm.swap a b t)

theorem iter_swap_perm (h : List α) (i j : Nat) : List.Perm (iter_swap h i j) h := by
  unfold iter_swap
  split
  · rename_i x y hi hj
    induction h generalizing i j with
    | nil => simp at hi
    | cons a t ih =>
      cases i with
      | zero =>
        simp at hi
        subst hi
        cases j with
        | zero => simp at hj; subst hj; simp
        | succ j =>
          simp at hj
          simpa using set_perm_cons t j _ _ hj
      | succ i =>
        simp at hi
        cases j with
        | zero =>
          simp at hj
          subst hj
          simpa using (set_perm_cons t i _ _ hi)
        | succ j =>
          simp at hj
          simpa using ih i j hi hj
  · exact List.Perm.refl _

theorem adjust_heap_length (comp : α → α → Bool) (fuel : Nat) (h : List α) (i : Nat) :
    (adjust_heap comp fuel h i).length = h.length := by
  induction fuel generalizing h i with
  | zero => rfl
  | succ fuel ih =>
    unfold adjust_heap
    split
    · split
      · split
        · rw [ih, iter_swap_length]
        · rfl
      · split
        · rw [ih, iter_swap_length]
        · rfl
    · split
      · rw [ih, iter_swap_length]
      · rfl
    · rfl

theorem adjust_heap_perm (comp : α → α → Bool) (fuel : Nat) (h : List α) (i : Nat) :
    List.Perm (adjust_heap comp fuel h i) h := by
  induction fuel generalizing h i with
  | zero => exact List.Perm.refl _
  | succ fuel ih =>
    unfold adjust_heap
    split
    · split
      · split
        · exact (ih _ _).trans (iter_swap_perm _ _ _)
        · exact List.Perm.refl _
      · split
        · exact (ih _ _).trans (iter_swap_perm _ _ _)
        · exact List.Perm.refl _
    · split
      · exact (ih _ _).trans (iter_swap_perm _ _ _)
      · exact List.Perm.refl _
    · exact List.Perm.refl _

theorem siftInv_swap (comp : α → α → Bool)
    (hasymm : ∀ a b, comp a b = true → comp b a = false)
    (k c m : Nat) (h : List α) (x big : α)
    (hc : h[c]? = some x) (hm : h[m]? = some big) (hm0 : 0 < m) (hpm : (m - 1) / 2 = c)
    (hlt : comp x big = true)
    (hbig : ∀ j, 0 < j → (j - 1) / 2 = c → ∀ y, h[j]? = some y → comp big y = false)
    (hinv : SiftInv comp k c h) :
    SiftInv comp k m (iter_swap h c m) := by
  obtain ⟨h1, h2⟩ := hinv
  have hcm : c < m := by omega
  refine ⟨?_, ?_⟩
  · intro j hj hk hne x' y' hx' hy'
    rw [getElem?_iter_swap h c m x big hc hm] at hx' hy'
    by_cases hp : (j - 1) / 2 = c
    · have hjc : ¬ j = c := by omega
      have e0 : ¬ c = m := by omega
      simp only [hp, e0, if_true, if_false] at hx'
      cases hx'
      by_cases hjm : j = m
      · simp only [hjm, if_true] at hy'
        cases hy'
        exact hasymm _ _ hlt
      · simp only [hjm, hjc, if_false] at hy'
        exact hbig j hj hp y' hy'
    · simp only [hne, hp, if_false] at hx'
      have hjm : ¬ j = m := by
        intro e
        rw [e] at hp
        exact hp hpm
      by_cases hjc : j = c
      · subst hjc
        have e0 : ¬ j = m := by omega
        simp only [e0, if_true, if_false] at hy'
        cases hy'
        exact h2 hj hk m hm0 hpm _ _ hx' hm
      · simp only [hjm, hjc, if_false] at hy'
        exact h1 j hj hk hp x' y' hx' hy'
  · intro _ hk j hj hp x' y' hx' hy'
    rw [getElem?_iter_swap h c m x big hc hm] at hx' hy'
    have e1 : ¬ c = m := by omega
    have e2 : ¬ j = m := by omega
    have e3 : ¬ j = c := by omega
    simp only [hpm, e1, if_true, if_false] at hx'
    simp only [e2, e3, if_false] at hy'
    cases hx'
    refine h1 j hj ?_ ?_ _ _ ?_ hy'
    · omega
    · omega
    · rw [hp]; exact hm

theorem adjust_heap_restores (comp : α → α → Bool)
    (hasymm : ∀ a b, comp a b = true → comp b a = false)
    (hge : ∀ a b c, comp a b = false → comp b c = false → comp a c = false)
    (fuel : Nat) (h : List α) (c k : Nat)
    (hfuel : h.length ≤ c + fuel) (hinv : SiftInv comp k c h) :
    ∀ j, 0 < j → k ≤ (j - 1) / 2 → EdgeOK comp (adjust_heap comp fuel h c) j := by
  have hirr : ∀ a, comp a a = false := by
    intro a
    cases e : comp a a
    · rfl
    · have := hasymm a a e
      rw [e] at this
      cases this
  induction fuel generalizing h c with
  | zero =>
    intro j hj hk
    show EdgeOK comp h j
    by_cases hp : (j - 1) / 2 = c
    · intro x y _ hy
      rw [List.getElem?_eq_none (by omega)] at hy
      cases hy
    · exact hinv.1 j hj hk hp
  | succ fuel ih =>
    have keep : ∀ x, h[c]? = some x →
        (∀ j, 0 < j → (j - 1) / 2 = c → ∀ y, h[j]? = some y → comp x y = false) →
        ∀ j, 0 < j → k ≤ (j - 1) / 2 → EdgeOK comp h j := by
      intro x hx hall j hj hk
      by_cases hp : (j - 1) / 2 = c
      · intro x' y' hx' hy'
        rw [hp, hx] at hx'
        cases hx'
        exact hall j hj hp y' hy'
      · exact hinv.1 j hj hk hp
    have child : ∀ j, 0 < j → (j - 1) / 2 = c → j = 2 * c + 1 ∨ j = 2 * c + 2 := by
      intro j hj hp
      omega
    unfold adjust_heap
    split
    · rename_i x a b hx ha hb
      split
      · rename_i hab
        split
        · rename_i hxb
          apply ih
          · rw [iter_swap_length]; omega
          · apply siftInv_swap comp hasymm k c (2 * c + 2) h x b hx hb (by omega) (by omega) hxb _ hinv
            intro j hj hp y hy
            rcases child j hj hp with e | e
            · subst e
              rw [ha] at hy
              cases hy
              exact hasymm _ _ hab
            · subst e
              rw [hb] at hy
              cases hy
              exact hirr _
        · rename_i hxb
          have hxb2 : comp x b = false := by simpa using hxb
          apply keep x hx
          intro j hj hp y hy
          rcases child j hj hp with e | e
          · subst e
            rw [ha] at hy
            cases hy
            exact hge _ _ _ hxb2 (hasymm _ _ hab)
          · subst e
            rw [hb] at hy
            cases hy
            exact hxb2
      · rename_i hab
        have hab2 : comp a b = false := by simpa using hab
        split
        · rename_i hxa
          apply ih
          · rw [iter_swap_length]; omega
          · apply siftInv_swap comp hasymm k c (2 * c + 1) h x a hx ha (by omega) (by omega) hxa _ hinv
            intro j hj hp y hy
            rcases child j hj hp with e | e
            · subst e
              rw [ha] at hy
              cases hy
              exact hirr _
            · subst e
              rw [hb] at hy
              cases hy
              exact hab2
        · rename_i hxa
          have hxa2 : comp x a = false := by simpa using hxa
          apply keep x hx
          intro j hj hp y hy
          rcases child j hj hp with e | e
          · subst e
            rw [ha] at hy
            cases hy
            exact hxa2
          · subst e
            rw [hb] at hy
            cases hy
            exact hge _ _ _ hxa2 hab2
    · rename_i x a hx ha hb
      split
      · rename_i hxa
        apply ih
        · rw [iter_swap_length]; omega
        · apply siftInv_swap comp hasymm k c (2 * c + 1) h x a hx ha (by omega) (by omega) hxa _ hinv
          intro j hj hp y hy
          rcases child j hj hp with e | e
          · subst e
            rw [ha] at hy
            cases hy
            exact hirr _
          · subst e
            rw [hb] at hy
            cases hy
      · rename_i hxa
        have hxa2 : comp x a = false := by simpa using hxa
        apply keep x hx
        intro j hj hp y hy
        rcases child j hj hp with e | e
        · subst e
          rw [ha] at hy
          cases hy
          exact hxa2
        · subst e
          rw [hb] at hy
          cases hy
    · rename_i hno1 hno2
      intro j hj hk
      by_cases hp : (j - 1) / 2 = c
      · intro x' y' hx' hy'
        rcases child j hj hp with e | e
        · subst e
          rw [hp] at hx'
          cases hr : h[2 * c + 2]? with
          | none => exact absurd hr (hno2 x' y' hx' hy')
          | some b => exact absurd hr (hno1 x' y' b hx' hy')
        · subst e
          rw [hp] at hx'
          have hl : ∃ a, h[2 * c + 1]? = some a := by
            have hlen : 2 * c + 2 < h.length := by
              by_contra hcon
              rw [List.getElem?_eq_none (by omega)] at hy'
              cases hy'
            exact ⟨h[2 * c + 1], List.getElem?_eq_getElem (by omega)⟩
          obtain ⟨a, ha⟩ := hl
          exact absurd hy' (hno1 x' a y' hx' ha)
      · exact hinv.1 j hj hk hp

theorem getElem?_some_of_lt (l : List α) (i : Nat) (h : i < l.length) :
    ∃ x, l[i]? = some x :=
  ⟨l[i], List.getElem?_eq_getElem h⟩

theorem make_heap_loop_isHeap (comp : α → α → Bool)
    (hasymm : ∀ a b, comp a b = true → comp b a = false)
    (hge : ∀ a b c, comp a b = false → comp b c = false → comp a c = false)
    (k : Nat) (h : List α)
    (hk : ∀ j, 0 < j → k ≤ (j - 1) / 2 → EdgeOK comp h j) :
    IsHeap comp (make_heap_loop comp k h) := by
  induction k generalizing h with
  | zero =>
    intro j hj
    exact hk j hj (Nat.zero_le _)
  | succ k ih =>
    show IsHeap comp (make_heap_loop comp k (adjust_heap comp h.length h k))
    apply ih
    apply adjust_heap_restores comp hasymm hge h.length h k k (by omega)
    refine ⟨?_, ?_⟩
    · intro j hj h1 h2
      exact hk j hj (by omega)
    · intro h1 h2
      omega

theorem make_heap_loop_perm (comp : α → α → Bool) (k : Nat) (h : List α) :
    List.Perm (make_heap_loop comp k h) h := by
  induction k generalizing h with
  | zero => exact List.Perm.refl _
  | succ k ih => exact (ih _).trans (adjust_heap_perm _ _ _ _)

/-- The result of `make_heap` has the heap property. -/
theorem make_heap_isHeap (comp : α → α → Bool)
    (hasymm : ∀ a b, comp a b = true → comp b a = false)
    (hge : ∀ a b c, comp a b = false → comp b c = false → comp a c = false)
    (h : List α) : IsHeap comp (make_heap comp h) := by
  apply make_heap_loop_isHeap comp hasymm hge
  intro j hj hk x y _ hy
  rw [List.getElem?_eq_none (by omega)] at hy
  cases hy

/-- The algorithm `make_heap` only rearranges the elements. -/
theorem make_heap_perm (comp : α → α → Bool) (h : List α) :
    List.Perm (make_heap comp h) h :=
  make_heap_loop_perm comp _ h

/-- The first element of a heap is not smaller than any element of the heap. -/
theorem isHeap_front_max (comp : α → α → Bool)
    (hasymm : ∀ a b, comp a b = true → comp b a = false)
    (hge : ∀ a b c, comp a b = false → comp b c = false → comp a c = false)
    (f : α) (t : List α) (hh : IsHeap comp (f :: t)) :
    ∀ y, y ∈ f :: t → comp f y = false := by
  have hirr : comp f f = false := by
    cases e : comp f f
    · rfl
    · have := hasymm f f e
      rw [e] at this
      cases this
  have key : ∀ (n j : Nat), j ≤ n → ∀ y, (f :: t)[j]? = some y → comp f y = false := by
    intro n
    induction n with
    | zero =>
      intro j hj y hy
      have : j = 0 := by omega
      subst this
      simp at hy
      subst hy
      exact hirr
    | succ n ih =>
      intro j hj y hy
      by_cases h0 : j = 0
      · subst h0
        simp at hy
        subst hy
        exact hirr
      · have hjl : j < (f :: t).length := by
          by_contra hc
          rw [List.getElem?_eq_none (by omega)] at hy
          cases hy
        obtain ⟨z, hp⟩ := getElem?_some_of_lt (f :: t) ((j - 1) / 2) (by omega)
        have h1 := ih ((j - 1) / 2) (by omega) _ hp
        have h2 := hh j (by omega) _ _ hp hy
        exact hge _ _ _ h1 h2
  intro y hy
  obtain ⟨j, hj⟩ := List.getElem?_of_mem hy
  exact key j j (Nat.le_refl _) y hj

/-- The effect of `pop_heap` on a non-empty heap: the old first element is
moved to the end, and the elements before it are the other elements, arranged
as a heap. -/
theorem pop_heap_spec (comp : α → α → Bool)
    (hasymm : ∀ a b, comp a b = true → comp b a = false)
    (hge : ∀ a b c, comp a b = false → comp b c = false → comp a c = false)
    (f : α) (t : List α) (hh : IsHeap comp (f :: t)) :
    ∃ h2, pop_heap comp (f :: t) = h2 ++ [f] ∧ IsHeap comp h2 ∧ List.Perm h2 t := by
  by_cases hlen : (f :: t).length < 2
  · have ht : t = [] := by
      cases t with
      | nil => rfl
      | cons a t =>
        simp only [List.length_cons] at hlen
        omega
    subst ht
    refine ⟨[], by simp [pop_heap], ?_, List.Perm.refl _⟩
    intro j _ x y hx
    simp at hx
  · have hn : 2 ≤ (f :: t).length := by omega
    obtain ⟨l, hlast⟩ := getElem?_some_of_lt (f :: t) ((f :: t).length - 1) (by omega)
    have hfirst : (f :: t)[0]? = some f := by simp
    have hs := getElem?_iter_swap (f :: t) 0 ((f :: t).length - 1) f _ hfirst hlast
    have hslen := iter_swap_length (f :: t) 0 ((f :: t).length - 1)
    have hdrop : (iter_swap (f :: t) 0 ((f :: t).length - 1)).drop ((f :: t).length - 1) = [f] := by
      apply List.ext_getElem?
      intro i
      rw [List.getElem?_drop, hs]
      by_cases hi : i = 0
      · subst hi
        simp
      · have e1 : ¬ ((f :: t).length - 1 + i = (f :: t).length - 1) := by omega
        have e2 : ¬ ((f :: t).length - 1 + i = 0) := by omega
        simp only [e1, e2, if_false]
        rw [List.getElem?_eq_none (by omega), List.getElem?_eq_none (by simp; omega)]
    refine ⟨adjust_heap comp ((f :: t).length - 1)
      ((iter_swap (f :: t) 0 ((f :: t).length - 1)).take ((f :: t).length - 1)) 0, ?_, ?_, ?_⟩
    · unfold pop_heap
      simp only [hlen, if_false]
      rw [hdrop]
    · intro j hj
      apply adjust_heap_restores comp hasymm hge _ _ 0 0
      · simp
      · refine ⟨?_, ?_⟩
        · intro j hj _ hne x y hx hy
          rw [List.getElem?_take] at hx hy
          split at hx
          · split at hy
            · rename_i c1 c2
              rw [hs] at hx hy
              have e1 : ¬ (j - 1) / 2 = (f :: t).length - 1 := by omega
              have e2 : ¬ j = (f :: t).length - 1 := by omega
              have e3 : ¬ j = 0 := by omega
              simp only [e1, hne, if_false] at hx
              simp only [e2, e3, if_false] at hy
              exact hh j hj x y hx hy
            · cases hy
          · cases hx
        · intro hc
          omega
      · exact hj
      · exact Nat.zero_le _
    · have p1 : List.Perm (adjust_heap comp ((f :: t).length - 1)
          ((iter_swap (f :: t) 0 ((f :: t).length - 1)).take ((f :: t).length - 1)) 0 ++ [f])
          (f :: t) := by
        have a1 := adjust_heap_perm comp ((f :: t).length - 1)
          ((iter_swap (f :: t) 0 ((f :: t).length - 1)).take ((f :: t).length - 1)) 0
        have a2 := iter_swap_perm (f :: t) 0 ((f :: t).length - 1)
        have a3 := List.take_append_drop ((f :: t).length - 1)
          (iter_swap (f :: t) 0 ((f :: t).length - 1))
        rw [hdrop] at a3
        rw [← a3] at a2
        exact (a1.append_right [f]).trans a2
      have p2 := (List.perm_append_singleton f _).symm.trans p1
      exact List.Perm.cons_inv p2

end HeapLemmas

/-! ## The ranker returns the greatest entries, greatest first -/

theorem cmp_ge_isTotal : IsTotal CountElem cmp_ge where
  total a b := by
    unfold cmp_ge
    cases e : cmp a b
    · exact Or.inl rfl
    · exact Or.inr (cmp_asymm a b e)

theorem cmp_ge_isTrans : IsTrans CountElem cmp_ge where
  trans a b c h1 h2 := cmp_ge_trans a b c h1 h2

theorem cmp_ge_isAntisymm : IsAntisymm CountElem cmp_ge where
  antisymm a b h1 h2 := cmp_antisymm a b h1 h2

theorem sorted_entries_sorted (buffer : CountBuffer) :
    List.Sorted cmp_ge (sorted_entries buffer) :=
  haveI := cmp_ge_isTotal
  haveI := cmp_ge_isTrans
  List.sorted_insertionSort cmp_ge buffer

theorem sorted_entries_perm (buffer : CountBuffer) :
    List.Perm (sorted_entries buffer) buffer :=
  List.perm_insertionSort cmp_ge buffer

theorem sorted_entries_congr (xs ys : CountBuffer) (h : List.Perm xs ys) :
    sorted_entries xs = sorted_entries ys :=
  haveI := cmp_ge_isAntisymm
  List.eq_of_perm_of_sorted
    (((sorted_entries_perm xs).trans h).trans (sorted_entries_perm ys).symm)
    (sorted_entries_sorted xs) (sorted_entries_sorted ys)

theorem GetTop_loop_spec (k : Nat) (heap top : List CountElem)
    (hh : IsHeap cmp heap) (hk : k ≤ heap.length) :
    ∃ res rest, GetTop_loop k heap top = top ++ res ∧ res.length = k ∧
      List.Perm (res ++ rest) heap ∧ List.Sorted cmp_ge res ∧
      ∀ a ∈ res, ∀ b ∈ rest, cmp_ge a b := by
  induction k generalizing heap top with
  | zero =>
    exact ⟨[], heap, by simp [GetTop_loop], rfl, by simp, List.sorted_nil, by simp⟩
  | succ k ih =>
    cases heap with
    | nil => simp at hk
    | cons f t =>
      obtain ⟨h2, hpop, hheap2, hperm2⟩ := pop_heap_spec cmp cmp_asymm cmp_ge_trans f t hh
      have hmax := isHeap_front_max cmp cmp_asymm cmp_ge_trans f t hh
      have hk2 : k ≤ h2.length := by
        rw [hperm2.length_eq]
        simpa using hk
      obtain ⟨res, rest, hres, hlen, hperm, hsorted, hcross⟩ := ih h2 (top ++ [f]) hheap2 hk2
      have hmem : ∀ y, y ∈ res ++ rest → cmp_ge f y := by
        intro y hy
        have : y ∈ t := hperm2.subset (hperm.subset hy)
        exact hmax y (List.mem_cons_of_mem f this)
      refine ⟨f :: res, rest, ?_, by simp [hlen], ?_, ?_, ?_⟩
      · simp only [GetTop_loop, List.head?_cons]
        rw [hpop, List.dropLast_concat, hres]
        simp
      · exact (hperm.trans hperm2).cons f
      · refine List.sorted_cons.mpr ⟨?_, hsorted⟩
        intro y hy
        exact hmem y (List.mem_append_left _ hy)
      · intro a ha b hb
        rcases List.mem_cons.mp ha with e | e
        · subst e
          exact hmem b (List.mem_append_right _ hb)
        · exact hcross a e b hb

/-- The ranker as sort-and-truncate: `GetTop` returns the first `n_top_`
entries of the table sorted greatest first by `cmp`. -/
theorem GetTop_eq_take_sorted (n_top_ : Nat) (buffer : CountBuffer) :
    GetTop n_top_ buffer = (sorted_entries buffer).take n_top_ := by
  have hheap : IsHeap cmp (make_heap cmp buffer) :=
    make_heap_isHeap cmp cmp_asymm cmp_ge_trans buffer
  have hperm0 : List.Perm (make_heap cmp buffer) buffer := make_heap_perm cmp buffer
  obtain ⟨res, rest, hres, hlen, hperm, hsorted, hcross⟩ :=
    GetTop_loop_spec (min n_top_ (make_heap cmp buffer).length) (make_heap cmp buffer) []
      hheap (Nat.min_le_right _ _)
  have hall : List.Sorted cmp_ge (res ++ sorted_entries rest) := by
    unfold List.Sorted
    rw [List.pairwise_append]
    refine ⟨hsorted, sorted_entries_sorted rest, ?_⟩
    intro a ha b hb
    exact hcross a ha b ((sorted_entries_perm rest).subset hb)
  have hp : List.Perm (res ++ sorted_entries rest) (sorted_entries buffer) :=
    ((((sorted_entries_perm rest).append_left res).trans hperm).trans hperm0).trans
      (sorted_entries_perm buffer).symm
  haveI := cmp_ge_isAntisymm
  have heq := List.eq_of_perm_of_sorted hp hall (sorted_entries_sorted buffer)
  have hlenb : (sorted_entries buffer).length = buffer.length :=
    (sorted_entries_perm buffer).length_eq
  show GetTop_loop (min n_top_ (make_heap cmp buffer).length) (make_heap cmp buffer) [] = _
  rw [hres, ← heq, List.nil_append]
  rw [hperm0.length_eq] at hlen
  by_cases hn : n_top_ ≤ buffer.length
  · rw [Nat.min_eq_left hn] at hlen
    rw [← hlen, List.take_left]
  · have hlen2 : res.length = buffer.length := by
      rw [hlen]; exact Nat.min_eq_right (by omega)
    have hrest : (sorted_entries rest) = [] := by
      have := hp.length_eq
      rw [List.length_append, hlenb, hlen2] at this
      exact List.length_eq_zero.mp (by omega)
    rw [hrest, List.append_nil, List.take_of_length_le (by omega)]

/-! ## The aggregator and the scan loop -/

theorem count_sum_increment (key : List Char) (buffer : CountBuffer) :
    count_sum (increment key buffer) = count_sum buffer + 1 := by
  induction buffer with
  | nil => simp [increment, count_sum]
  | cons e rest ih =>
    obtain ⟨k, c⟩ := e
    unfold increment
    by_cases hk : k = key
    · simp only [hk, if_true]
      simp only [count_sum, List.map_cons, List.sum_cons]
      omega
    · simp only [hk, if_false]
      simp only [count_sum, List.map_cons, List.sum_cons] at ih ⊢
      omega

theorem keys_increment (key : List Char) (buffer : CountBuffer) :
    keys (increment key buffer) = if key ∈ keys buffer then keys buffer else keys buffer ++ [key] := by
  induction buffer with
  | nil => simp [increment, keys]
  | cons e rest ih =>
    obtain ⟨k, c⟩ := e
    unfold increment
    by_cases hk : k = key
    · simp [hk, keys]
    · have hk2 : ¬ key = k := fun e => hk e.symm
      simp only [hk, if_false]
      simp only [keys, List.map_cons, List.mem_cons, hk2, false_or] at ih ⊢
      rw [ih]
      split <;> simp

theorem keys_increment_nodup (key : List Char) (buffer : CountBuffer)
    (h : (keys buffer).Nodup) : (keys (increment key buffer)).Nodup := by
  rw [keys_increment]
  split
  · exact h
  · rename_i hn
    exact List.Nodup.append h (List.nodup_singleton key) (by simpa using hn)

theorem mem_keys_increment (key k : List Char) (buffer : CountBuffer)
    (h : k ∈ keys (increment key buffer)) : k = key ∨ k ∈ keys buffer := by
  rw [keys_increment] at h
  split at h
  · exact Or.inr h
  · rcases List.mem_append.mp h with h1 | h1
    · exact Or.inr h1
    · exact Or.inl (by simpa using h1)

/-- The path that `count_match` counts is never the empty string. -/
theorem counted_path_ne_nil (p : List Char) :
    (if p.isEmpty || p = [' '] then ['/'] else p) ≠ [] := by
  cases p with
  | nil => simp
  | cons c cs =>
    by_cases h : c :: cs = [' ']
    · simp [h]
    · simp [h]

/-- A property of the object that every counted match preserves holds after
the scan loop, whatever the number of rounds. -/
theorem scan_loop_preserves (P : DomainPathCounter → Prop)
    (hstep : ∀ s m, P s → P (count_match s m))
    (fuel : Nat) (ss : StringStream) (line : List Char) (s : DomainPathCounter) (hs : P s) :
    P (scan_loop fuel ss line s) := by
  have hline : ∀ (ms : List (List Char × List Char)) (s : DomainPathCounter),
      P s → P (ms.foldl count_match s) := by
    intro ms
    induction ms with
    | nil => intro s hs; exact hs
    | cons m ms ih => intro s hs; exact ih _ (hstep s m hs)
  induction fuel generalizing ss line s with
  | zero => exact hs
  | succ fuel ih =>
    unfold scan_loop
    split
    · exact hs
    · exact ih _ _ _ (hline _ _ hs)

theorem FindDomainsAndNames_preserves (P : DomainPathCounter → Prop)
    (hstep : ∀ s m, P s → P (count_match s m)) (s : DomainPathCounter) (hs : P s) :
    P (FindDomainsAndNames s) :=
  scan_loop_preserves P hstep _ _ _ s hs

theorem read_line_rest_length (buf l rest : List Char)
    (h : read_line buf = (l, some rest)) : rest.length < buf.length := by
  induction buf generalizing l with
  | nil => simp [read_line] at h
  | cons c cs ih =>
    unfold read_line at h
    by_cases hc : c = '\n'
    · simp only [hc, if_true, Prod.mk.injEq, Option.some.injEq] at h
      rw [← h.2]
      simp
    · simp only [hc, if_false, Prod.mk.injEq] at h
      have := ih (read_line cs).1 (Prod.ext rfl h.2)
      simp only [List.length_cons]
      omega

theorem scan_fuel_getline (ss : StringStream) (line : List Char) (h : ss.failbit = false) :
    scan_fuel (getline ss line).1 < scan_fuel ss := by
  unfold getline
  by_cases he : ss.eofbit = true
  · simp [he, scan_fuel, h]
  · have he2 : ss.eofbit = false := by simpa using he
    simp only [he2, h, Bool.or_self, Bool.false_eq_true, if_false]
    split
    · rename_i l rest hr
      have := read_line_rest_length _ _ _ hr
      simp only [scan_fuel, h, he2, Bool.false_eq_true, if_false]
      omega
    · rename_i l hr
      simp only [scan_fuel, h, he2, Bool.false_eq_true, if_false, if_true]
      split <;> omega

/-- The loop of `FindDomainsAndNames` ends within `scan_fuel` rounds: with at
least that many rounds allowed the result no longer depends on the bound. -/
theorem scan_loop_fuel (fuel1 fuel2 : Nat) (ss : StringStream) (line : List Char)
    (s : DomainPathCounter) (h1 : scan_fuel ss ≤ fuel1) (h2 : scan_fuel ss ≤ fuel2) :
    scan_loop fuel1 ss line s = scan_loop fuel2 ss line s := by
  induction fuel1 generalizing fuel2 ss line s with
  | zero =>
    have hf : ss.failbit = true := by
      by_contra hc
      have hc2 : ss.failbit = false := by simpa using hc
      unfold scan_fuel at h1
      simp only [hc2, Bool.false_eq_true, if_false] at h1
      split at h1 <;> omega
    cases fuel2 with
    | zero => rfl
    | succ m => simp [scan_loop, hf]
  | succ n ih =>
    by_cases hf : ss.failbit = true
    · cases fuel2 with
      | zero => simp [scan_loop, hf]
      | succ m => simp [scan_loop, hf]
    · have hf2 : ss.failbit = false := by simpa using hf
      have hlt := scan_fuel_getline ss line hf2
      cases fuel2 with
      | zero => omega
      | succ m =>
        simp only [scan_loop, hf2, Bool.false_eq_true, if_false]
        exact ih m _ _ _ (by omega) (by omega)

/-! ## Consequences for the result of `GetTop` -/

theorem pairwise_getElem? {β : Type} (R : β → β → Prop) (l : List β) (hl : l.Pairwise R)
    (i j : Nat) (x y : β) (hij : i < j) (hx : l[i]? = some x) (hy : l[j]? = some y) :
    R x y := by
  induction l generalizing i j with
  | nil => simp at hx
  | cons a t ih =>
    rw [List.pairwise_cons] at hl
    cases j with
    | zero => omega
    | succ j =>
      simp only [List.getElem?_cons_succ] at hy
      cases i with
      | zero =>
        simp only [List.getElem?_cons_zero, Option.some.injEq] at hx
        subst hx
        exact hl.1 y (List.getElem?_mem hy)
      | succ i =>
        simp only [List.getElem?_cons_succ] at hx
        exact ih hl.2 i j (by omega) hx hy

theorem GetTop_sublist (n : Nat) (buffer : CountBuffer) :
    List.Sublist (GetTop n buffer) (sorted_entries buffer) := by
  rw [GetTop_eq_take_sorted]
  exact List.take_sublist _ _

theorem GetTop_sorted (n : Nat) (buffer : CountBuffer) :
    List.Pairwise cmp_ge (GetTop n buffer) :=
  List.Pairwise.sublist (GetTop_sublist n buffer) (sorted_entries_sorted buffer)

theorem GetTop_mem (n : Nat) (buffer : CountBuffer) (e : CountElem)
    (h : e ∈ GetTop n buffer) : e ∈ buffer :=
  (sorted_entries_perm buffer).subset ((GetTop_sublist n buffer).subset h)

theorem GetTop_keys_nodup (n : Nat) (buffer : CountBuffer) (h : (keys buffer).Nodup) :
    (keys (GetTop n buffer)).Nodup := by
  have h1 : (keys (sorted_entries buffer)).Nodup :=
    (((sorted_entries_perm buffer).map Prod.fst).nodup_iff).mpr h
  exact List.Nodup.sublist ((GetTop_sublist n buffer).map Prod.fst) h1

theorem GetTop_length (n : Nat) (buffer : CountBuffer) :
    (GetTop n buffer).length = min n buffer.length := by
  rw [GetTop_eq_take_sorted, List.length_take, (sorted_entries_perm buffer).length_eq]

theorem GetTop_congr (n : Nat) (xs ys : CountBuffer) (h : List.Perm xs ys) :
    GetTop n xs = GetTop n ys := by
  rw [GetTop_eq_take_sorted, GetTop_eq_take_sorted, sorted_entries_congr xs ys h]

theorem GetTop_dominates (n : Nat) (buffer : CountBuffer) (e r : CountElem)
    (he : e ∈ buffer) (hne : e ∉ GetTop n buffer) (hr : r ∈ GetTop n buffer) :
    cmp_ge r e := by
  rw [GetTop_eq_take_sorted] at hne hr
  have hs := sorted_entries_sorted buffer
  have hmem : e ∈ sorted_entries buffer := (sorted_entries_perm buffer).symm.subset he
  rw [← List.take_append_drop n (sorted_entries buffer)] at hs hmem
  rcases List.mem_append.mp hmem with h1 | h1
  · exact absurd h1 hne
  · exact (List.pairwise_append.mp hs).2.2 r hr e h1

theorem cmp_ge_count (x y : CountElem) (h : cmp_ge x y) : y.2 ≤ x.2 := by
  unfold cmp_ge at h
  rw [Bool.eq_false_iff, Ne, cmp_iff] at h
  omega

theorem cmp_ge_tie (x y : CountElem) (h : cmp_ge x y) (hc : x.2 = y.2) (hk : x.1 ≠ y.1) :
    string_compare x.1 y.1 < 0 := by
  unfold cmp_ge at h
  rw [Bool.eq_false_iff, Ne, cmp_iff] at h
  have h0 : string_compare x.1 y.1 ≠ 0 := fun e => hk (string_compare_eq_zero _ _ e)
  omega

theorem keys_ne_of_lt (l : CountBuffer) (hl : (keys l).Nodup) (i j : Nat) (x y : CountElem)
    (hij : i < j) (hx : l[i]? = some x) (hy : l[j]? = some y) : x.1 ≠ y.1 := by
  have hp : (keys l).Pairwise (fun a b => a ≠ b) := hl
  apply pairwise_getElem? _ (keys l) hp i j x.1 y.1 hij
  · simp [keys, hx]
  · simp [keys, hy]

/-! ## Invariants of the object -/

theorem FindDomainsAndNames_n_top (s : DomainPathCounter) :
    (FindDomainsAndNames s).n_top_ = s.n_top_ :=
  FindDomainsAndNames_preserves (fun t => t.n_top_ = s.n_top_) (fun _ _ h => h) s rfl

theorem count_match_sums (s : DomainPathCounter) (m : List Char × List Char)
    (h : count_sum s.domains_ = s.num_urls_ ∧ count_sum s.paths_ = s.num_urls_) :
    count_sum (count_match s m).domains_ = (count_match s m).num_urls_ ∧
    count_sum (count_match s m).paths_ = (count_match s m).num_urls_ := by
  simp only [count_match, count_sum_increment]
  omega

theorem count_match_keys_nodup (s : DomainPathCounter) (m : List Char × List Char)
    (h : (keys s.domains_).Nodup ∧ (keys s.paths_).Nodup) :
    (keys (count_match s m).domains_).Nodup ∧ (keys (count_match s m).paths_).Nodup :=
  ⟨keys_increment_nodup _ _ h.1, keys_increment_nodup _ _ h.2⟩

theorem count_match_paths_ne_nil (s : DomainPathCounter) (m : List Char × List Char)
    (h : ∀ k ∈ keys s.paths_, k ≠ []) : ∀ k ∈ keys (count_match s m).paths_, k ≠ [] := by
  intro k hk
  rcases mem_keys_increment _ k _ hk with e | e
  · rw [e]
    exact counted_path_ne_nil m.2
  · exact h k e

/-- Every reachable state satisfies a property that holds for empty tables
with the count zero and that every counted match preserves. -/
theorem reachable_invariant (P : DomainPathCounter → Prop)
    (hinit : ∀ (input : List Char) (re : Regex) (n : Nat),
      P { input_ := input, re_ := re, n_top_ := n, domains_ := [], paths_ := [], num_urls_ := 0 })
    (hstep : ∀ s m, P s → P (count_match s m))
    (s : DomainPathCounter) (hs : Reachable s) : P s := by
  induction hs with
  | empty => exact hinit _ _ _
  | new input re n => exact hinit input re n
  | Prepare s input re n _ _ => exact hinit input re n
  | GetStats s _ ih => exact FindDomainsAndNames_preserves P hstep s ih

theorem reachable_sums (s : DomainPathCounter) (hs : Reachable s) :
    count_sum s.domains_ = s.num_urls_ ∧ count_sum s.paths_ = s.num_urls_ :=
  reachable_invariant
    (fun t => count_sum t.domains_ = t.num_urls_ ∧ count_sum t.paths_ = t.num_urls_)
    (fun _ _ _ => by simp [count_sum]) count_match_sums s hs

theorem reachable_keys_nodup (s : DomainPathCounter) (hs : Reachable s) :
    (keys s.domains_).Nodup ∧ (keys s.paths_).Nodup :=
  reachable_invariant (fun t => (keys t.domains_).Nodup ∧ (keys t.paths_).Nodup)
    (fun _ _ _ => by simp [keys]) count_match_keys_nodup s hs

theorem reachable_paths_ne_nil (s : DomainPathCounter) (hs : Reachable s) :
    ∀ k ∈ keys s.paths_, k ≠ [] :=
  reachable_invariant (fun t => ∀ k ∈ keys t.paths_, k ≠ [])
    (fun _ _ _ => by simp [keys]) count_match_paths_ne_nil s hs

/-! ## The iteration over the matches of the default pattern ends -/

theorem url_re_group3_length (s p r : List Char) (h : url_re_group3 s = some (p, r)) :
    r.length ≤ s.length := by
  cases s with
  | nil =>
    simp only [url_re_group3, Option.some.injEq, Prod.mk.injEq] at h
    rw [← h.2]
  | cons c cs =>
    simp only [url_re_group3] at h
    split at h
    · simp only [Option.some.injEq, Prod.mk.injEq] at h
      rw [← h.2]
      simp
    · split at h
      · simp only [Option.some.injEq, Prod.mk.injEq] at h
        rw [← h.2]
        have := (List.dropWhile_sublist is_path_char (l := cs)).length_le
        simp only [List.length_cons]
        omega
      · cases h

theorem url_re_group2_length (s d p r : List Char) (h : url_re_group2 s = some (d, p, r)) :
    r.length < s.length := by
  induction s generalizing d p r with
  | nil => simp [url_re_group2] at h
  | cons c cs ih =>
    simp only [url_re_group2] at h
    split at h
    · split at h
      · rename_i d2 p2 r2 h2
        simp only [Option.some.injEq, Prod.mk.injEq] at h
        have := ih d2 p2 r2 h2
        rw [← h.2.2]
        simp only [List.length_cons]
        omega
      · split at h
        · rename_i p3 r3 h3
          simp only [Option.some.injEq, Prod.mk.injEq] at h
          have := url_re_group3_length cs p3 r3 h3
          rw [← h.2.2]
          simp only [List.length_cons]
          omega
        · cases h
    · cases h

theorem url_re_match_length (s d p r : List Char) (h : url_re_match s = some (d, p, r)) :
    r.length < s.length := by
  unfold url_re_match at h
  split at h
  · rename_i r1 h1
    have h2 := url_re_group2_length r1 d p r h
    have h3 : r1.length ≤ s.length := by
      unfold url_re_group1 at h1
      split at h1
      · simp only [Option.some.injEq] at h1
        rw [← h1, List.length_drop]
        omega
      · split at h1
        · simp only [Option.some.injEq] at h1
          rw [← h1, List.length_drop]
          omega
        · cases h1
    omega
  · cases h

/-- The iteration over the matches of a line ends within as many steps as the
line has characters: with at least that many steps allowed the result no
longer depends on the bound. -/
theorem url_re_iter_fuel (fuel1 fuel2 : Nat) (s : List Char)
    (h1 : s.length ≤ fuel1) (h2 : s.length ≤ fuel2) :
    url_re_iter fuel1 s = url_re_iter fuel2 s := by
  induction fuel1 generalizing fuel2 s with
  | zero =>
    have hs : s = [] := List.length_eq_zero.mp (by omega)
    subst hs
    cases fuel2 <;> simp [url_re_iter]
  | succ n ih =>
    cases s with
    | nil => cases fuel2 <;> simp [url_re_iter]
    | cons c cs =>
      cases fuel2 with
      | zero => simp at h2
      | succ m =>
        simp only [List.length_cons] at h1 h2
        simp only [url_re_iter]
        split
        · rename_i d p r hm
          have := url_re_match_length _ d p r hm
          simp only [List.length_cons] at this
          rw [ih m r (by omega) (by omega)]
        · exact ih m cs (by omega) (by omega)

/-! ## The scan loop as a fold over the scanned lines -/

theorem scan_loop_eq_foldl (fuel : Nat) (ss : StringStream) (line : List Char)
    (s : DomainPathCounter) :
    scan_loop fuel ss line s = (scan_lines fuel ss line).foldl count_line s := by
  induction fuel generalizing ss line s with
  | zero => rfl
  | succ fuel ih =>
    unfold scan_loop scan_lines
    split
    · rfl
    · simp only [List.foldl_cons]
      exact ih _ _ _

theorem foldl_count_match_re (ms : List (List Char × List Char)) (s : DomainPathCounter) :
    (ms.foldl count_match s).re_ = s.re_ := by
  induction ms generalizing s with
  | nil => rfl
  | cons m ms ih =>
    simp only [List.foldl_cons]
    rw [ih]
    rfl

theorem foldl_count_line (lines : List (List Char)) (s : DomainPathCounter) :
    lines.foldl count_line s = (lines.flatMap s.re_).foldl count_match s := by
  induction lines generalizing s with
  | nil => rfl
  | cons l lines ih =>
    simp only [List.foldl_cons, List.flatMap_cons, List.foldl_append]
    rw [ih]
    unfold count_line
    rw [foldl_count_match_re]

/-- The state after `FindDomainsAndNames`: every match of every scanned line
has been counted, in the order of the scan. -/
theorem FindDomainsAndNames_eq_foldl (s : DomainPathCounter) :
    FindDomainsAndNames s =
      ((scanned_lines s.input_).flatMap s.re_).foldl count_match s := by
  unfold FindDomainsAndNames scanned_lines
  simp only []
  rw [scan_loop_eq_foldl, foldl_count_line]

theorem foldl_count_match_domains (ms : List (List Char × List Char)) (s : DomainPathCounter) :
    (ms.foldl count_match s).domains_ =
      (ms.map Prod.fst).foldl (fun t k => increment k t) s.domains_ := by
  induction ms generalizing s with
  | nil => rfl
  | cons m ms ih =>
    simp only [List.foldl_cons, List.map_cons]
    rw [ih]
    rfl

theorem foldl_count_match_paths (ms : List (List Char × List Char)) (s : DomainPathCounter) :
    (ms.foldl count_match s).paths_ =
      (ms.map (fun m => normalize_path m.2)).foldl (fun t k => increment k t) s.paths_ := by
  induction ms generalizing s with
  | nil => rfl
  | cons m ms ih =>
    simp only [List.foldl_cons, List.map_cons]
    rw [ih]
    rfl

theorem foldl_count_match_num_urls (ms : List (List Char × List Char)) (s : DomainPathCounter) :
    (ms.foldl count_match s).num_urls_ = s.num_urls_ + ms.length := by
  induction ms generalizing s with
  | nil => rfl
  | cons m ms ih =>
    simp only [List.foldl_cons, List.length_cons]
    rw [ih]
    simp only [count_match]
    omega

/-! ## The content of a table after a sequence of increments -/

theorem find_increment (key k : List Char) (buffer : CountBuffer) :
    find (increment key buffer) k =
      if k = key then some ((find buffer k).getD 0 + 1) else find buffer k := by
  induction buffer with
  | nil =>
    by_cases h : k = key
    · subst h
      simp [increment, find]
    · have h2 : ¬ key = k := fun e => h e.symm
      simp [increment, find, h, h2]
  | cons e rest ih =>
    obtain ⟨k0, c⟩ := e
    unfold increment
    by_cases h0 : k0 = key
    · subst h0
      simp only [if_true]
      by_cases h : k = k0
      · subst h
        simp only [find, if_true, Option.getD_some]
      · have h2 : ¬ k0 = k := fun e => h e.symm
        simp only [find, h, h2, if_false]
    · simp only [h0, if_false]
      by_cases h1 : k0 = k
      · subst h1
        simp only [find, if_true, h0, if_false]
      · simp only [find, h1, if_false]
        exact ih

theorem occurrences_perm (k : List Char) (ks1 ks2 : List (List Char)) (h : List.Perm ks1 ks2) :
    occurrences k ks1 = occurrences k ks2 := by
  induction h with
  | nil => rfl
  | cons x _ ih => simp only [occurrences, ih]
  | swap x y l =>
    simp only [occurrences]
    omega
  | trans _ _ ih1 ih2 => exact ih1.trans ih2

theorem find_foldl_increment (ks : List (List Char)) (k : List Char) (buffer : CountBuffer) :
    find (ks.foldl (fun t key => increment key t) buffer) k =
      if occurrences k ks = 0 then find buffer k
      else some ((find buffer k).getD 0 + occurrences k ks) := by
  induction ks generalizing buffer with
  | nil => simp [occurrences]
  | cons key ks ih =>
    simp only [List.foldl_cons]
    rw [ih, find_increment]
    by_cases h : k = key
    · subst h
      simp only [occurrences, if_true, Option.getD_some]
      have hne : ¬ (1 + occurrences k ks = 0) := by omega
      simp only [hne, if_false]
      by_cases h0 : occurrences k ks = 0
      · simp [h0]
      · simp only [h0, if_false]
        congr 1
        omega
    · have h2 : ¬ key = k := fun e => h e.symm
      simp only [occurrences, h, h2, if_false, Nat.zero_add]

theorem keys_foldl_increment_nodup (ks : List (List Char)) (buffer : CountBuffer)
    (h : (keys buffer).Nodup) :
    (keys (ks.foldl (fun t key => increment key t) buffer)).Nodup := by
  induction ks generalizing buffer with
  | nil => exact h
  | cons key ks ih => exact ih _ (keys_increment_nodup key buffer h)

theorem mem_keys_iff_find (buffer : CountBuffer) (k : List Char) :
    k ∈ keys buffer ↔ find buffer k ≠ none := by
  induction buffer with
  | nil => simp [keys, find]
  | cons e rest ih =>
    obtain ⟨k0, c⟩ := e
    by_cases h : k0 = k
    · simp [keys, find, h]
    · have h2 : ¬ k = k0 := fun e => h e.symm
      simp only [keys, List.map_cons, List.mem_cons, h2, false_or, find, h, if_false]
      exact ih

theorem mem_iff_find (buffer : CountBuffer) (hk : (keys buffer).Nodup) (k : List Char) (c : Nat) :
    (k, c) ∈ buffer ↔ find buffer k = some c := by
  induction buffer with
  | nil => simp [find]
  | cons e rest ih =>
    obtain ⟨k0, c0⟩ := e
    have hk2 : k0 ∉ keys rest ∧ (keys rest).Nodup := by
      simpa [keys] using hk
    by_cases h : k0 = k
    · subst h
      simp only [List.mem_cons, Prod.mk.injEq, true_and, find, if_true, Option.some.injEq]
      constructor
      · rintro (e | e)
        · exact e.symm
        · exact absurd (List.mem_map_of_mem Prod.fst e) hk2.1
      · intro e
        exact Or.inl e.symm
    · have h2 : ¬ k = k0 := fun e => h e.symm
      simp only [List.mem_cons, Prod.mk.injEq, h2, false_and, false_or, find, h, if_false]
      exact ih hk2.2

/-- Two tables without repeated keys that store the same count for every key
hold the same entries, possibly in a different order. -/
theorem perm_of_find_eq (b1 b2 : CountBuffer) (h1 : (keys b1).Nodup) (h2 : (keys b2).Nodup)
    (h : ∀ k, find b1 k = find b2 k) : List.Perm b1 b2 := by
  have n1 : b1.Nodup := List.Nodup.of_map Prod.fst h1
  have n2 : b2.Nodup := List.Nodup.of_map Prod.fst h2
  rw [List.perm_ext_iff_of_nodup n1 n2]
  intro e
  obtain ⟨k, c⟩ := e
  rw [mem_iff_find b1 h1, mem_iff_find b2 h2, h k]

theorem foldl_increment_perm (ks1 ks2 : List (List Char)) (h : List.Perm ks1 ks2) :
    List.Perm (ks1.foldl (fun t key => increment key t) [])
      (ks2.foldl (fun t key => increment key t) []) := by
  apply perm_of_find_eq
  · exact keys_foldl_increment_nodup ks1 [] (by simp [keys])
  · exact keys_foldl_increment_nodup ks2 [] (by simp [keys])
  · intro k
    rw [find_foldl_increment, find_foldl_increment, occurrences_perm k ks1 ks2 h]

/-! ## The lines scanned in a text of newline-terminated lines -/

theorem read_line_append (l rest : List Char) (h : '\n' ∉ l) :
    read_line (l ++ '\n' :: rest) = (l, some rest) := by
  induction l with
  | nil => simp [read_line]
  | cons c cs ih =>
    have hc : ¬ c = '\n' := by
      intro e
      apply h
      rw [e]
      exact List.mem_cons_self _ _
    have hcs : '\n' ∉ cs := fun e => h (List.mem_cons_of_mem c e)
    have e := ih hcs
    show read_line (c :: (cs ++ '\n' :: rest)) = (c :: cs, some rest)
    unfold read_line
    simp only [hc, if_false, e]

theorem scan_lines_join_lines (lines : List (List Char)) (fuel : Nat) (line : List Char)
    (h : ∀ l ∈ lines, '\n' ∉ l) (hfuel : (join_lines lines).length + 2 ≤ fuel) :
    scan_lines fuel { buf := join_lines lines, eofbit := false, failbit := false } line =
      lines ++ [[]] := by
  induction lines generalizing fuel line with
  | nil =>
    cases fuel with
    | zero => omega
    | succ fuel =>
      cases fuel with
      | zero => simp [join_lines] at hfuel
      | succ fuel => simp [scan_lines, getline, join_lines, read_line]
  | cons l lines ih =>
    cases fuel with
    | zero => omega
    | succ fuel =>
      have hl : '\n' ∉ l := h l (List.mem_cons_self _ _)
      have hls : ∀ x ∈ lines, '\n' ∉ x := fun x hx => h x (List.mem_cons_of_mem l hx)
      have hlen : (join_lines lines).length + 2 ≤ fuel := by
        simp only [join_lines, List.length_append, List.length_cons] at hfuel
        omega
      simp only [scan_lines, getline, join_lines, read_line_append l _ hl, Bool.or_self,
        Bool.false_eq_true, if_false, List.cons_append]
      rw [ih fuel l hls hlen]

/-- In a text made of newline-terminated lines the loop scans these lines in
order and then, in its last round, one empty line. -/
theorem scanned_lines_join_lines (lines : List (List Char)) (h : ∀ l ∈ lines, '\n' ∉ l) :
    scanned_lines (join_lines lines) = lines ++ [[]] := by
  unfold scanned_lines
  apply scan_lines_join_lines lines _ _ h
  simp [scan_fuel]

/-! ## The texts of the matches of the default pattern -/

theorem url_re_group3_split (s p r : List Char) (h : url_re_group3 s = some (p, r)) :
    s = p ++ r := by
  cases s with
  | nil =>
    simp only [url_re_group3, Option.some.injEq, Prod.mk.injEq] at h
    rw [← h.1, ← h.2]
    rfl
  | cons c cs =>
    simp only [url_re_group3] at h
    split at h
    · simp only [Option.some.injEq, Prod.mk.injEq] at h
      rw [← h.1, ← h.2]
      rfl
    · split at h
      · simp only [Option.some.injEq, Prod.mk.injEq] at h
        rw [← h.1, ← h.2, List.cons_append, List.takeWhile_append_dropWhile]
      · cases h

theorem url_re_group2_split (s d p r : List Char) (h : url_re_group2 s = some (d, p, r)) :
    s = d ++ p ++ r ∧ d ≠ [] ∧ ∀ c ∈ d, is_domain_char c = true := by
  induction s generalizing d p r with
  | nil => simp [url_re_group2] at h
  | cons c cs ih =>
    simp only [url_re_group2] at h
    split at h
    · rename_i hc
      split at h
      · rename_i d2 p2 r2 h2
        simp only [Option.some.injEq, Prod.mk.injEq] at h
        obtain ⟨e1, e2, e3⟩ := ih d2 p2 r2 h2
        rw [← h.1, ← h.2.1, ← h.2.2]
        refine ⟨?_, List.cons_ne_nil _ _, ?_⟩
        · rw [e1]
          rfl
        · intro x hx
          rcases List.mem_cons.mp hx with e | e
          · rw [e]
            exact hc
          · exact e3 x e
      · split at h
        · rename_i p3 r3 h3
          simp only [Option.some.injEq, Prod.mk.injEq] at h
          have e1 := url_re_group3_split cs p3 r3 h3
          rw [← h.1, ← h.2.1, ← h.2.2]
          refine ⟨?_, List.cons_ne_nil _ _, ?_⟩
          · rw [e1]
            rfl
          · intro x hx
            rcases List.mem_cons.mp hx with e | e
            · rw [e]
              exact hc
            · cases e
        · cases h
    · cases h

theorem url_re_group1_split (s r : List Char) (h : url_re_group1 s = some r) :
    (s = "https://".toList ++ r ∨ s = "http://".toList ++ r) := by
  unfold url_re_group1 at h
  split at h
  · rename_i hp
    simp only [Option.some.injEq] at h
    rw [List.isPrefixOf_iff_prefix, List.prefix_iff_eq_append] at hp
    left
    rw [← h]
    exact hp.symm
  · split at h
    · rename_i hp
      simp only [Option.some.injEq] at h
      rw [List.isPrefixOf_iff_prefix, List.prefix_iff_eq_append] at hp
      right
      rw [← h]
      exact hp.symm
    · cases h

/-- A match of the default pattern at the start of `s` consists of the scheme,
a non-empty domain of domain characters and the text of the third group, one
after the other; `r` is what follows the match. -/
theorem url_re_match_split (s d p r : List Char) (h : url_re_match s = some (d, p, r)) :
    ∃ scheme : List Char, (scheme = "https://".toList ∨ scheme = "http://".toList) ∧
      s = scheme ++ d ++ p ++ r ∧ d ≠ [] ∧ ∀ c ∈ d, is_domain_char c = true := by
  unfold url_re_match at h
  split at h
  · rename_i r1 h1
    obtain ⟨e1, e2, e3⟩ := url_re_group2_split r1 d p r h
    rcases url_re_group1_split s r1 h1 with e | e
    · refine ⟨"https://".toList, Or.inl rfl, ?_, e2, e3⟩
      rw [e, e1]
      simp only [List.append_assoc]
    · refine ⟨"http://".toList, Or.inr rfl, ?_, e2, e3⟩
      rw [e, e1]
      simp only [List.append_assoc]
  · cases h

/-- The matches that the iteration finds in a line are pieces of the line that
follow one another without overlap: the line is the text before the first
match, the first match, the text between the first and the second match, and
so on. -/
theorem url_re_iter_assemble (fuel : Nat) (s : List Char) :
    ∃ (segs : List (List Char × List Char × List Char × List Char)) (tail : List Char),
      s = assemble segs tail ∧
      url_re_iter fuel s = segs.map (fun g => (g.2.2.1, g.2.2.2)) ∧
      ∀ g ∈ segs, (g.2.1 = "https://".toList ∨ g.2.1 = "http://".toList) ∧
        g.2.2.1 ≠ [] ∧ ∀ c ∈ g.2.2.1, is_domain_char c = true := by
  induction fuel generalizing s with
  | zero => exact ⟨[], s, rfl, rfl, by simp⟩
  | succ fuel ih =>
    cases s with
    | nil => exact ⟨[], [], rfl, rfl, by simp⟩
    | cons c cs =>
      simp only [url_re_iter]
      split
      · rename_i d p r hm
        obtain ⟨scheme, hs, hsplit, hd, hall⟩ := url_re_match_split _ d p r hm
        obtain ⟨segs, tail, e1, e2, e3⟩ := ih r
        refine ⟨([], scheme, d, p) :: segs, tail, ?_, ?_, ?_⟩
        · rw [hsplit, e1]
          simp only [assemble, List.nil_append, List.append_assoc]
        · rw [e2]
          rfl
        · intro g hg
          rcases List.mem_cons.mp hg with e | e
          · rw [e]
            exact ⟨hs, hd, hall⟩
          · exact e3 g e
      · obtain ⟨segs, tail, e1, e2, e3⟩ := ih cs
        cases segs with
        | nil =>
          refine ⟨[], c :: tail, ?_, e2, by simp⟩
          rw [e1]
          rfl
        | cons g0 rest =>
          obtain ⟨gap, scheme, d, p⟩ := g0
          refine ⟨(c :: gap, scheme, d, p) :: rest, tail, ?_, ?_, ?_⟩
          · rw [e1]
            rfl
          · rw [e2]
            rfl
          · intro g hg
            rcases List.mem_cons.mp hg with e | e
            · rw [e]
              exact e3 (gap, scheme, d, p) (List.mem_cons_self _ _)
            · exact e3 g (List.mem_cons_of_mem _ e)

theorem url_re_domain (line : List Char) (m : List Char × List Char) (hm : m ∈ url_re line) :
    m.1 ≠ [] ∧ ∀ c ∈ m.1, is_domain_char c = true := by
  obtain ⟨segs, tail, _, e2, e3⟩ := url_re_iter_assemble line.length line
  unfold url_re at hm
  rw [e2] at hm
  obtain ⟨g, hg, rfl⟩ := List.mem_map.mp hm
  exact (e3 g hg).2

/-- The characters of the bracket expression of the second group are the ASCII
letters, the digits, the dot and the hyphen. -/
theorem is_domain_char_iff (c : Char) :
    is_domain_char c = true ↔
      ((97 ≤ c.toNat ∧ c.toNat ≤ 122) ∨ (65 ≤ c.toNat ∧ c.toNat ≤ 90) ∨
        (48 ≤ c.toNat ∧ c.toNat ≤ 57) ∨ c = '.' ∨ c = '-') := by
  have ha : 'a'.toNat = 97 := by decide
  have hz : 'z'.toNat = 122 := by decide
  have hA : 'A'.toNat = 65 := by decide
  have hZ : 'Z'.toNat = 90 := by decide
  have h0 : '0'.toNat = 48 := by decide
  have h9 : '9'.toNat = 57 := by decide
  simp only [is_domain_char, is_alnum, ha, hz, hA, hZ, h0, h9, Bool.or_eq_true,
    Bool.and_eq_true, decide_eq_true_eq]
  tauto

/-! ## The search for the next match starts where the last match ended -/

theorem url_re_match_nil : url_re_match [] = none := by decide

theorem url_re_of_match (s d p r : List Char) (h : url_re_match s = some (d, p, r)) :
    url_re s = (d, p) :: url_re r := by
  cases s with
  | nil =>
    rw [url_re_match_nil] at h
    cases h
  | cons c cs =>
    have hlen := url_re_match_length _ d p r h
    simp only [List.length_cons] at hlen
    unfold url_re
    simp only [List.length_cons, url_re_iter, h]
    rw [url_re_iter_fuel cs.length r.length r (by omega) (Nat.le_refl _)]

theorem url_re_of_no_match (c : Char) (cs : List Char) (h : url_re_match (c :: cs) = none) :
    url_re (c :: cs) = url_re cs := by
  unfold url_re
  simp only [List.length_cons, url_re_iter, h]

theorem url_re_nil : url_re [] = [] := rfl

/-! ## A line without a match that needs a deep recursion of the matcher -/

theorem pop_heap_length {α : Type} (comp : α → α → Bool) (h : List α) :
    (pop_heap comp h).length = h.length := by
  unfold pop_heap
  split
  · rfl
  · simp only [List.length_append, adjust_heap_length, List.length_take, List.length_drop,
      iter_swap_length]
    omega

theorem GetTop_loop_checked_eq (k : Nat) (heap top : List CountElem) (hk : k ≤ heap.length) :
    GetTop_loop_checked k heap top = some (GetTop_loop k heap top) := by
  induction k generalizing heap top with
  | zero => rfl
  | succ k ih =>
    cases heap with
    | nil => simp at hk
    | cons f t =>
      simp only [GetTop_loop_checked, GetTop_loop, List.head?_cons]
      apply ih
      rw [List.length_dropLast, pop_heap_length]
      simp only [List.length_cons] at hk ⊢
      omega

theorem GetTop_checked_eq (n : Nat) (buffer : CountBuffer) :
    GetTop_checked n buffer = some (GetTop n buffer) :=
  GetTop_loop_checked_eq _ _ _ (Nat.min_le_right _ _)

theorem GetTop_nil (n : Nat) : GetTop n [] = [] := by
  have h := GetTop_length n []
  simp only [List.length_nil, Nat.min_zero] at h
  exact List.length_eq_zero.mp h

theorem mem_keys_foldl_increment (ks : List (List Char)) (k : List Char) (buffer : CountBuffer)
    (h : k ∈ keys (ks.foldl (fun t key => increment key t) buffer)) :
    k ∈ ks ∨ k ∈ keys buffer := by
  induction ks generalizing buffer with
  | nil => exact Or.inr h
  | cons key ks ih =>
    rcases ih _ h with e | e
    · exact Or.inl (List.mem_cons_of_mem _ e)
    · rcases mem_keys_increment key k buffer e with e2 | e2
      · exact Or.inl (by rw [e2]; exact List.mem_cons_self _ _)
      · exact Or.inr e2

/-- The report of a newly constructed object depends only on the matches of
the scanned lines up to their order. -/
theorem GetStats_report_perm (input1 input2 : List Char) (re : Regex) (n : Nat)
    (h : List.Perm ((scanned_lines input1).flatMap re) ((scanned_lines input2).flatMap re)) :
    (GetStats (DomainPathCounter.new input1 re n)).2 =
      (GetStats (DomainPathCounter.new input2 re n)).2 := by
  have hs1 : FindDomainsAndNames (DomainPathCounter.new input1 re n) =
      ((scanned_lines input1).flatMap re).foldl count_match (DomainPathCounter.new input1 re n) :=
    FindDomainsAndNames_eq_foldl _
  have hs2 : FindDomainsAndNames (DomainPathCounter.new input2 re n) =
      ((scanned_lines input2).flatMap re).foldl count_match (DomainPathCounter.new input2 re n) :=
    FindDomainsAndNames_eq_foldl _
  have hn1 := FindDomainsAndNames_n_top (DomainPathCounter.new input1 re n)
  have hn2 := FindDomainsAndNames_n_top (DomainPathCounter.new input2 re n)
  have hu : (FindDomainsAndNames (DomainPathCounter.new input1 re n)).num_urls_ =
      (FindDomainsAndNames (DomainPathCounter.new input2 re n)).num_urls_ := by
    rw [hs1, hs2, foldl_count_match_num_urls, foldl_count_match_num_urls, h.length_eq]
    rfl
  have hd : List.Perm (FindDomainsAndNames (DomainPathCounter.new input1 re n)).domains_
      (FindDomainsAndNames (DomainPathCounter.new input2 re n)).domains_ := by
    rw [hs1, hs2, foldl_count_match_domains, foldl_count_match_domains]
    exact foldl_increment_perm _ _ (h.map Prod.fst)
  have hp : List.Perm (FindDomainsAndNames (DomainPathCounter.new input1 re n)).paths_
      (FindDomainsAndNames (DomainPathCounter.new input2 re n)).paths_ := by
    rw [hs1, hs2, foldl_count_match_paths, foldl_count_match_paths]
    exact foldl_increment_perm _ _ (h.map _)
  unfold GetStats
  simp only []
  rw [hn1, hn2, hu, hd.length_eq, hp.length_eq, GetTop_congr _ _ _ hd, GetTop_congr _ _ _ hp]
  rfl

/-- The value of the report for a text without a match: when the pattern finds
no match in any scanned line (and the matcher returns on each of them),
`GetStats` on a newly constructed object computes the report with the three
numbers zero and two empty rankings. -/
theorem no_match_report (input : List Char) (re : Regex) (n : Nat)
    (h : ∀ line ∈ scanned_lines input, re line = []) :
    (GetStats (DomainPathCounter.new input re n)).2 =
      "total urls 0, domains 0, paths 0\n\ntop domains\n\ntop paths\n".toList := by
  have hflat : (scanned_lines input).flatMap re = [] := by
    rw [List.flatMap_eq_nil_iff]
    exact h
  have hs : FindDomainsAndNames (DomainPathCounter.new input re n) =
      DomainPathCounter.new input re n := by
    rw [FindDomainsAndNames_eq_foldl]
    show List.foldl count_match _ ((scanned_lines input).flatMap re) = _
    rw [hflat]
    rfl
  have hr : (GetStats (DomainPathCounter.new input re n)).2 =
      format_report 0 0 0 (GetTop n []) (GetTop n []) := by
    unfold GetStats
    simp only []
    rw [hs]
    rfl
  rw [hr, GetTop_nil]
  decide

/-! ## The claims about the ranker and the report -/

/-- C1 (as stated in the specification, refuted): for the table
`{"b":5, "a":5, "c":3}` and `N = 3` the ranker returns `(a,5), (b,5), (c,3)`
and not `(b,5), (a,5), (c,3)`: the two entries with the count five come with
the smaller key first, so the key at the earlier position does not compare
greater than the key at the later one. -/
theorem C1_counterexample :
    GetTop 3 [(['b'], 5), (['a'], 5), (['c'], 3)] = [(['a'], 5), (['b'], 5), (['c'], 3)] ∧
    GetTop 3 [(['b'], 5), (['a'], 5), (['c'], 3)] ≠ [(['b'], 5), (['a'], 5), (['c'], 3)] ∧
    ¬ (0 < string_compare ['a'] ['b']) := by
  decide

/-- C1 (amended): for every table with unique keys and every `N`, any two
returned entries with equal counts appear in ascending byte-wise key order
(the key at the earlier position compares less than the key at the later
position); in particular every enumeration of the table
`{"b":5, "a":5, "c":3}` gives, for `N = 3`, the order `(a,5), (b,5), (c,3)`. -/
theorem C1_ties_in_ascending_key_order :
    (∀ (n : Nat) (buffer : CountBuffer) (i j : Nat) (x y : CountElem),
      (keys buffer).Nodup → i < j →
      (GetTop n buffer)[i]? = some x → (GetTop n buffer)[j]? = some y →
      x.2 = y.2 → string_compare x.1 y.1 < 0) ∧
    (∀ buffer : CountBuffer, List.Perm buffer [(['b'], 5), (['a'], 5), (['c'], 3)] →
      GetTop 3 buffer = [(['a'], 5), (['b'], 5), (['c'], 3)]) := by
  refine ⟨?_, ?_⟩
  · intro n buffer i j x y hnd hij hx hy hc
    have hge : cmp_ge x y := pairwise_getElem? cmp_ge _ (GetTop_sorted n buffer) i j x y hij hx hy
    have hk : x.1 ≠ y.1 :=
      keys_ne_of_lt _ (GetTop_keys_nodup n buffer hnd) i j x y hij hx hy
    exact cmp_ge_tie x y hge hc hk
  · intro buffer hp
    rw [GetTop_congr 3 buffer _ hp]
    decide

/-- Witness of C1 (amended) on the table `{"b":5, "a":5, "c":3}`. -/
theorem C1_ties_in_ascending_key_order_witness :
    string_compare ['a'] ['b'] < 0 ∧
    GetTop 3 [(['c'], 3), (['b'], 5), (['a'], 5)] = [(['a'], 5), (['b'], 5), (['c'], 3)] :=
  ⟨C1_ties_in_ascending_key_order.1 3 [(['b'], 5), (['a'], 5), (['c'], 3)] 0 1
      (['a'], 5) (['b'], 5) (by decide) (by decide) (by decide) (by decide) rfl,
   C1_ties_in_ascending_key_order.2 [(['c'], 3), (['b'], 5), (['a'], 5)] (by decide)⟩

/-- C2: for every table and every `N` the result of `GetTop` is sorted by
count descending: the count at a position is at least the count at every
later position. -/
theorem C2_sorted_by_count_descending (n : Nat) (buffer : CountBuffer) (i j : Nat)
    (x y : CountElem) (hij : i < j)
    (hx : (GetTop n buffer)[i]? = some x) (hy : (GetTop n buffer)[j]? = some y) :
    y.2 ≤ x.2 :=
  cmp_ge_count x y (pairwise_getElem? cmp_ge _ (GetTop_sorted n buffer) i j x y hij hx hy)

/-- Witness of C2 on a table of four entries and `N = 3`. -/
theorem C2_sorted_by_count_descending_witness :
    (GetTop 3 [(['x'], 4), (['y'], 9), (['z'], 1), (['w'], 4)])[0]? = some (['y'], 9) ∧
    (GetTop 3 [(['x'], 4), (['y'], 9), (['z'], 1), (['w'], 4)])[2]? = some (['x'], 4) ∧
    (4 : Nat) ≤ 9 :=
  ⟨by decide, by decide,
   C2_sorted_by_count_descending 3 [(['x'], 4), (['y'], 9), (['z'], 1), (['w'], 4)] 0 2
    (['y'], 9) (['x'], 4) (by decide) (by decide) (by decide)⟩

/-- C3: for every table with unique keys and every `N`, `GetTop` returns the
`N` highest-count entries: it returns `min N size` entries, every returned
entry is an entry of the table, the returned keys are pairwise distinct, and
every table entry that is not returned has a count less than or equal to the
count of every returned entry. -/
theorem C3_returns_highest_counts (n : Nat) (buffer : CountBuffer)
    (hkeys : (keys buffer).Nodup) :
    (GetTop n buffer).length = min n buffer.length ∧
    (∀ e ∈ GetTop n buffer, e ∈ buffer) ∧
    (keys (GetTop n buffer)).Nodup ∧
    (∀ e ∈ buffer, e ∉ GetTop n buffer → ∀ r ∈ GetTop n buffer, e.2 ≤ r.2) :=
  ⟨GetTop_length n buffer,
   fun e he => GetTop_mem n buffer e he,
   GetTop_keys_nodup n buffer hkeys,
   fun e he hne r hr => cmp_ge_count r e (GetTop_dominates n buffer e r he hne hr)⟩

/-- Witness of C3 on a table of four entries and `N = 2`. -/
theorem C3_returns_highest_counts_witness :
    (GetTop 2 [(['x'], 4), (['y'], 9), (['z'], 1), (['w'], 4)]).length = min 2 4 ∧
    (∀ e ∈ GetTop 2 [(['x'], 4), (['y'], 9), (['z'], 1), (['w'], 4)],
      e ∈ [(['x'], 4), (['y'], 9), (['z'], 1), (['w'], 4)]) ∧
    (keys (GetTop 2 [(['x'], 4), (['y'], 9), (['z'], 1), (['w'], 4)])).Nodup ∧
    (∀ e ∈ [(['x'], 4), (['y'], 9), (['z'], 1), (['w'], 4)],
      e ∉ GetTop 2 [(['x'], 4), (['y'], 9), (['z'], 1), (['w'], 4)] →
      ∀ r ∈ GetTop 2 [(['x'], 4), (['y'], 9), (['z'], 1), (['w'], 4)], e.2 ≤ r.2) :=
  C3_returns_highest_counts 2 [(['x'], 4), (['y'], 9), (['z'], 1), (['w'], 4)] (by decide)

/-- C4: for every input text, pattern and `N`, the report of `GetStats` on a
newly constructed object is written from the rankings `GetTop N domains_` and
`GetTop N paths_`, which have `min N (number of entries of domains_)` and
`min N (number of entries of paths_)` entries, the keys of either table being
pairwise distinct; for instance a table of two entries and `N = 10` gives
exactly two ranked entries. -/
theorem C4_number_of_ranked_entries (input : List Char) (re : Regex) (n : Nat) :
    (GetStats (DomainPathCounter.new input re n)).2 =
      format_report (GetStats (DomainPathCounter.new input re n)).1.num_urls_
        (GetStats (DomainPathCounter.new input re n)).1.domains_.length
        (GetStats (DomainPathCounter.new input re n)).1.paths_.length
        (GetTop n (GetStats (DomainPathCounter.new input re n)).1.domains_)
        (GetTop n (GetStats (DomainPathCounter.new input re n)).1.paths_) ∧
    (GetTop n (GetStats (DomainPathCounter.new input re n)).1.domains_).length =
      min n (GetStats (DomainPathCounter.new input re n)).1.domains_.length ∧
    (GetTop n (GetStats (DomainPathCounter.new input re n)).1.paths_).length =
      min n (GetStats (DomainPathCounter.new input re n)).1.paths_.length ∧
    (keys (GetStats (DomainPathCounter.new input re n)).1.domains_).Nodup ∧
    (keys (GetStats (DomainPathCounter.new input re n)).1.paths_).Nodup ∧
    (GetTop 10 [("a.com".toList, 1), ("b.com".toList, 2)]).length = 2 := by
  have hn : (FindDomainsAndNames (DomainPathCounter.new input re n)).n_top_ = n :=
    FindDomainsAndNames_n_top _
  have hr := reachable_keys_nodup _ (Reachable.GetStats _ (Reachable.new input re n))
  refine ⟨?_, GetTop_length _ _, GetTop_length _ _, hr.1, hr.2, by decide⟩
  simp only [GetStats, hn]


/-- C5: the result of `GetTop` does not depend on the order in which the
entries of the table are enumerated: two enumerations that are permutations
of each other give the same sequence, for every `N`. -/
theorem C5_independent_of_iteration_order (n : Nat) (xs ys : CountBuffer)
    (h : List.Perm xs ys) : GetTop n xs = GetTop n ys :=
  GetTop_congr n xs ys h

/-- Witness of C5 on two enumerations of a table of three entries. -/
theorem C5_independent_of_iteration_order_witness :
    GetTop 2 [(['x'], 4), (['y'], 9), (['z'], 1)] = GetTop 2 [(['z'], 1), (['x'], 4), (['y'], 9)] :=
  C5_independent_of_iteration_order 2 [(['x'], 4), (['y'], 9), (['z'], 1)]
    [(['z'], 1), (['x'], 4), (['y'], 9)] (by decide)

/-! ## The claims about the object and the extractor -/

/-- C6 (the code at the failing input): on an object constructed with the
input `https://a.com` (one line), the default pattern and `N = 1`, the first
call of `GetStats` reports one url and the second call, without `Prepare` in
between, reports two: the second scan adds to the counts of the first. -/
theorem C6_second_GetStats_adds_to_the_counts :
    (GetStats (DomainPathCounter.new "https://a.com\n".toList url_re 1)).2 =
      "total urls 1, domains 1, paths 1\n\ntop domains\n1 a.com\n\ntop paths\n1 /\n".toList ∧
    (GetStats (GetStats (DomainPathCounter.new "https://a.com\n".toList url_re 1)).1).2 =
      "total urls 2, domains 1, paths 1\n\ntop domains\n2 a.com\n\ntop paths\n2 /\n".toList := by
  decide

/-- C7: in every reachable state of the object (after either constructor, after
`Prepare`, after any number of `GetStats` calls) the sum of the counts of the
domain table and the sum of the counts of the path table both equal
`num_urls_`. -/
theorem C7_count_sums_equal_num_urls (s : DomainPathCounter) (hs : Reachable s) :
    count_sum s.domains_ = s.num_urls_ ∧ count_sum s.paths_ = s.num_urls_ :=
  reachable_sums s hs

/-- Witness of C7 on the state after `GetStats` on a two-line input. -/
theorem C7_count_sums_equal_num_urls_witness :
    count_sum (GetStats (DomainPathCounter.new
      "http://a.com/x http://b.com\nhttp://a.com/y\n".toList url_re 1)).1.domains_ =
      (GetStats (DomainPathCounter.new
        "http://a.com/x http://b.com\nhttp://a.com/y\n".toList url_re 1)).1.num_urls_ ∧
    count_sum (GetStats (DomainPathCounter.new
      "http://a.com/x http://b.com\nhttp://a.com/y\n".toList url_re 1)).1.paths_ =
      (GetStats (DomainPathCounter.new
        "http://a.com/x http://b.com\nhttp://a.com/y\n".toList url_re 1)).1.num_urls_ :=
  C7_count_sums_equal_num_urls _ (Reachable.GetStats _ (Reachable.new _ _ _))

/-- C8 (the code at the failing input): the text `https://example.com` without
a line terminator is counted twice by `FindDomainsAndNames`, while the same
text with a newline appended is counted once. -/
theorem C8_unterminated_last_line_is_counted_twice :
    (FindDomainsAndNames (DomainPathCounter.new "https://example.com".toList url_re 1)).num_urls_
      = 2 ∧
    (FindDomainsAndNames (DomainPathCounter.new "https://example.com".toList url_re 1)).domains_
      = [("example.com".toList, 2)] ∧
    (FindDomainsAndNames (DomainPathCounter.new "https://example.com".toList url_re 1)).paths_
      = [(['/'], 2)] ∧
    (FindDomainsAndNames (DomainPathCounter.new "https://example.com\n".toList url_re 1)).num_urls_
      = 1 ∧
    (FindDomainsAndNames (DomainPathCounter.new "https://example.com\n".toList url_re 1)).domains_
      = [("example.com".toList, 1)] ∧
    (FindDomainsAndNames (DomainPathCounter.new "https://example.com\n".toList url_re 1)).paths_
      = [(['/'], 1)] := by
  decide

/-- C9 (the code at the failing input): in the line `https://example.com<TAB>GET`
the third group of the default pattern matches the single white-space character
tab, and `FindDomainsAndNames` counts the path `<TAB>`, not `/`; with a space in
the place of the tab the path `/` is counted. -/
theorem C9_tab_is_counted_as_a_path :
    isspace '\t' = true ∧
    url_re "https://example.com\tGET".toList = [("example.com".toList, ['\t'])] ∧
    (FindDomainsAndNames
      (DomainPathCounter.new "https://example.com\tGET\n".toList url_re 1)).paths_
      = [(['\t'], 1)] ∧
    url_re "https://example.com GET".toList = [("example.com".toList, [' '])] ∧
    (FindDomainsAndNames
      (DomainPathCounter.new "https://example.com GET\n".toList url_re 1)).paths_
      = [(['/'], 1)] := by
  decide

/-- C10: after `FindDomainsAndNames`, run in any reachable state of the object
(whatever the input text and the pattern), no key of the path table is the
empty string; in particular the url `https://example.com` at the end of a line
is counted under the key `/`. -/
theorem C10_no_empty_path_key :
    (∀ s : DomainPathCounter, Reachable s →
      ∀ k ∈ keys (FindDomainsAndNames s).paths_, k ≠ []) ∧
    keys (FindDomainsAndNames
      (DomainPathCounter.new "https://example.com\n".toList url_re 1)).paths_ = [['/']] ∧
    keys (FindDomainsAndNames
      (DomainPathCounter.new "https://example.com".toList url_re 1)).paths_ = [['/']] := by
  refine ⟨?_, by decide, by decide⟩
  intro s hs k hk
  exact reachable_paths_ne_nil _ (Reachable.GetStats s hs) k hk

/-- Witness of C10 on the input `see http://a.com/x`. -/
theorem C10_no_empty_path_key_witness :
    "/x".toList ∈ keys (FindDomainsAndNames
      (DomainPathCounter.new "see http://a.com/x\n".toList url_re 1)).paths_ ∧
    "/x".toList ≠ [] :=
  ⟨by decide,
   C10_no_empty_path_key.1 (DomainPathCounter.new "see http://a.com/x\n".toList url_re 1)
     (Reachable.new "see http://a.com/x\n".toList url_re 1) "/x".toList (by decide)⟩

/-! ## The claims about the aggregator, the scenarios and the comparator -/

/-- C11: after one pass of `FindDomainsAndNames` on a newly constructed object,
for every string `k` the domain table stores for `k` the number of extracted
pairs whose domain is `k`, and `k` is absent exactly when that number is zero;
the path table does the same for the normalised paths; `num_urls_` is the
number of extracted pairs. Counting one pair raises the count of its domain
and of its normalised path by one (entering the key when it was absent),
leaves the lookup of every other key unchanged, and raises `num_urls_` by one. -/
theorem C11_aggregator_counts_the_pairs :
    (∀ (input : List Char) (re : Regex) (n : Nat) (k : List Char),
      find (FindDomainsAndNames (DomainPathCounter.new input re n)).domains_ k =
        (if occurrences k ((extracted_pairs re input).map Prod.fst) = 0 then none
         else some (occurrences k ((extracted_pairs re input).map Prod.fst))) ∧
      (k ∈ keys (FindDomainsAndNames (DomainPathCounter.new input re n)).domains_ ↔
        occurrences k ((extracted_pairs re input).map Prod.fst) ≠ 0) ∧
      find (FindDomainsAndNames (DomainPathCounter.new input re n)).paths_ k =
        (if occurrences k ((extracted_pairs re input).map Prod.snd) = 0 then none
         else some (occurrences k ((extracted_pairs re input).map Prod.snd))) ∧
      (k ∈ keys (FindDomainsAndNames (DomainPathCounter.new input re n)).paths_ ↔
        occurrences k ((extracted_pairs re input).map Prod.snd) ≠ 0) ∧
      (FindDomainsAndNames (DomainPathCounter.new input re n)).num_urls_ =
        (extracted_pairs re input).length) ∧
    (∀ (s : DomainPathCounter) (m : List Char × List Char) (k : List Char),
      find (count_match s m).domains_ k =
        (if k = m.1 then some ((find s.domains_ k).getD 0 + 1) else find s.domains_ k) ∧
      find (count_match s m).paths_ k =
        (if k = normalize_path m.2 then some ((find s.paths_ k).getD 0 + 1)
         else find s.paths_ k) ∧
      (count_match s m).num_urls_ = s.num_urls_ + 1) := by
  refine ⟨?_, ?_⟩
  · intro input re n k
    have hd : (extracted_pairs re input).map Prod.fst =
        ((scanned_lines input).flatMap re).map Prod.fst := by
      simp only [extracted_pairs, List.map_map]
      rfl
    have hp : (extracted_pairs re input).map Prod.snd =
        ((scanned_lines input).flatMap re).map (fun m => normalize_path m.2) := by
      simp only [extracted_pairs, List.map_map]
      rfl
    have hs : FindDomainsAndNames (DomainPathCounter.new input re n) =
        ((scanned_lines input).flatMap re).foldl count_match (DomainPathCounter.new input re n) :=
      FindDomainsAndNames_eq_foldl _
    have fd : find (FindDomainsAndNames (DomainPathCounter.new input re n)).domains_ k =
        (if occurrences k ((extracted_pairs re input).map Prod.fst) = 0 then none
         else some (occurrences k ((extracted_pairs re input).map Prod.fst))) := by
      rw [hs, foldl_count_match_domains, find_foldl_increment, hd]
      simp [DomainPathCounter.new, find]
    have fp : find (FindDomainsAndNames (DomainPathCounter.new input re n)).paths_ k =
        (if occurrences k ((extracted_pairs re input).map Prod.snd) = 0 then none
         else some (occurrences k ((extracted_pairs re input).map Prod.snd))) := by
      rw [hs, foldl_count_match_paths, find_foldl_increment, hp]
      simp [DomainPathCounter.new, find]
    refine ⟨fd, ?_, fp, ?_, ?_⟩
    · rw [mem_keys_iff_find, fd]
      split <;> simp_all
    · rw [mem_keys_iff_find, fp]
      split <;> simp_all
    · rw [hs, foldl_count_match_num_urls]
      simp [DomainPathCounter.new, extracted_pairs]
  · intro s m k
    exact ⟨find_increment m.1 k s.domains_, find_increment (normalize_path m.2) k s.paths_, rfl⟩

/-- C12: for the input text made of the two lines
`visit https://site1.com/page and https://site2.com` and
`also https://site1.com/page again`, each ended by a newline, the default
pattern and `N = 2`, `GetStats` returns the report with three urls, two domains
and two paths, the domains `2 site1.com`, `1 site2.com` and the paths
`2 /page`, `1 /`. -/
theorem C12_end_to_end_report :
    (GetStats (DomainPathCounter.new
      "visit https://site1.com/page and https://site2.com\nalso https://site1.com/page again\n".toList
      url_re 2)).2 =
    "total urls 3, domains 2, paths 2\n\ntop domains\n2 site1.com\n1 site2.com\n\ntop paths\n2 /page\n1 /\n".toList := by
  decide

/-- C13: for the line `https://a.com/x https://b.com/y` the default pattern
yields exactly the two pairs (a.com, /x) and (b.com, /y), in this order, also
when the line is read from a text in which a newline follows it, and the line
`http://a.com http://b.com`, whose second url begins right where the first
match ends, yields both urls. In every line the search for the next match
starts exactly at the end of the previous match: when the pattern matches at
the start of a text `s`, which then is the scheme, the domain and the path of
the match followed by a rest `r`, the matches of `s` are this match followed
by the matches of `r`; when the pattern does not match at the start of a text,
its matches are those of the text after its first character; the empty text
has no match. So the matches are pieces of the line that follow one another
without overlap: the line is put together from the text before the first
match, the first match, the text between the first and the second match, and
so on. -/
theorem C13_matches_in_scan_order_without_overlap :
    url_re "https://a.com/x https://b.com/y".toList =
      [("a.com".toList, "/x".toList), ("b.com".toList, "/y".toList)] ∧
    extracted_pairs url_re "https://a.com/x https://b.com/y\n".toList =
      [("a.com".toList, "/x".toList), ("b.com".toList, "/y".toList)] ∧
    url_re "http://a.com http://b.com".toList =
      [("a.com".toList, [' ']), ("b.com".toList, [])] ∧
    (∀ s d p r : List Char, url_re_match s = some (d, p, r) →
      (∃ scheme : List Char, (scheme = "https://".toList ∨ scheme = "http://".toList) ∧
        s = scheme ++ d ++ p ++ r) ∧
      url_re s = (d, p) :: url_re r) ∧
    (∀ (c : Char) (cs : List Char), url_re_match (c :: cs) = none →
      url_re (c :: cs) = url_re cs) ∧
    url_re [] = [] ∧
    (∀ line : List Char,
      ∃ (segs : List (List Char × List Char × List Char × List Char)) (tail : List Char),
        line = assemble segs tail ∧
        url_re line = segs.map (fun g => (g.2.2.1, g.2.2.2)) ∧
        ∀ g ∈ segs, (g.2.1 = "https://".toList ∨ g.2.1 = "http://".toList) ∧ g.2.2.1 ≠ []) := by
  refine ⟨by decide, by decide, by decide, ?_, url_re_of_no_match, url_re_nil, ?_⟩
  · intro s d p r h
    obtain ⟨scheme, hs, hsplit, _, _⟩ := url_re_match_split s d p r h
    exact ⟨⟨scheme, hs, hsplit⟩, url_re_of_match s d p r h⟩
  · intro line
    obtain ⟨segs, tail, e1, e2, e3⟩ := url_re_iter_assemble line.length line
    exact ⟨segs, tail, e1, e2, fun g hg => ⟨(e3 g hg).1, (e3 g hg).2.1⟩⟩

/-- Witness of C13 on the line `http://a.com http://b.com`: the first match
ends after the space, and the search goes on with `http://b.com`. -/
theorem C13_matches_in_scan_order_without_overlap_witness :
    url_re_match "http://a.com http://b.com".toList =
      some ("a.com".toList, [' '], "http://b.com".toList) ∧
    (∃ scheme : List Char, (scheme = "https://".toList ∨ scheme = "http://".toList) ∧
      "http://a.com http://b.com".toList =
        scheme ++ "a.com".toList ++ [' '] ++ "http://b.com".toList) ∧
    url_re "http://a.com http://b.com".toList =
      ("a.com".toList, [' ']) :: url_re "http://b.com".toList :=
  ⟨by decide,
   (C13_matches_in_scan_order_without_overlap.2.2.2.1 "http://a.com http://b.com".toList
      "a.com".toList [' '] "http://b.com".toList (by decide)).1,
   (C13_matches_in_scan_order_without_overlap.2.2.2.1 "http://a.com http://b.com".toList
      "a.com".toList [' '] "http://b.com".toList (by decide)).2⟩

/-- C15: for every state of the object and every input, pattern and `N`,
`Prepare` leaves `num_urls_ = 0` and both tables empty, and a following
`GetStats` returns the same report (and leaves the same state) as `GetStats` on
an object newly constructed with the same input, pattern and `N`. -/
theorem C15_Prepare_resets (s : DomainPathCounter) (input : List Char) (re : Regex) (n : Nat) :
    (s.Prepare input re n).num_urls_ = 0 ∧
    (s.Prepare input re n).domains_ = [] ∧
    (s.Prepare input re n).paths_ = [] ∧
    (GetStats (s.Prepare input re n)).2 = (GetStats (DomainPathCounter.new input re n)).2 ∧
    GetStats (s.Prepare input re n) = GetStats (DomainPathCounter.new input re n) :=
  ⟨rfl, rfl, rfl, rfl, rfl⟩

/-- C16: for every table and every `N`, also `N = 0` and `N` greater than the
size of the table, no round of the extraction loop of `GetTop` starts on an
empty heap (the checked loop never fails and gives the result of `GetTop`),
the loop stores one entry per round and `min N size` entries in all, and the
empty table gives the empty result. -/
theorem C16_GetTop_never_reads_an_empty_heap (n : Nat) (buffer : CountBuffer) :
    GetTop_checked n buffer = some (GetTop n buffer) ∧
    (GetTop n buffer).length = min n buffer.length ∧
    GetTop_checked n [] = some [] ∧
    GetTop n [] = [] :=
  ⟨GetTop_checked_eq n buffer, GetTop_length n buffer,
   (GetTop_checked_eq n []).trans (congrArg some (GetTop_nil n)), GetTop_nil n⟩

/-- C17: for every table with unique keys, every enumeration `heap` of its
entries and every `N`, `GetTop` returns what sorting and truncating returns:
the first `min N size` entries of the list of all entries sorted greatest
first by `cmp`. That sorted list holds the entries of the table, each entry
before every entry that `cmp` ranks below it. -/
theorem C17_GetTop_is_sort_and_truncate (n : Nat) (buffer heap : CountBuffer)
    (hkeys : (keys buffer).Nodup) (hperm : List.Perm heap buffer) :
    GetTop n heap = sort_and_truncate n buffer ∧
    List.Perm (buffer.insertionSort cmp_ge) buffer ∧
    List.Pairwise (fun a b => cmp b a = true) (buffer.insertionSort cmp_ge) := by
  refine ⟨?_, sorted_entries_perm buffer, ?_⟩
  · rw [GetTop_congr n heap buffer hperm, GetTop_eq_take_sorted]
    unfold sort_and_truncate sorted_entries
    have hlen : (buffer.insertionSort cmp_ge).length = buffer.length :=
      List.length_insertionSort cmp_ge buffer
    by_cases hn : n ≤ buffer.length
    · rw [Nat.min_eq_left hn]
    · rw [Nat.min_eq_right (by omega), List.take_of_length_le (by omega),
        List.take_of_length_le (by omega)]
  · have hs : List.Pairwise cmp_ge (sorted_entries buffer) := sorted_entries_sorted buffer
    have hk : (keys (sorted_entries buffer)).Nodup :=
      (((sorted_entries_perm buffer).map Prod.fst).nodup_iff).mpr hkeys
    have hk2 : List.Pairwise (fun a b : CountElem => a.1 ≠ b.1) (sorted_entries buffer) :=
      List.pairwise_map.mp hk
    refine List.Pairwise.imp₂ ?_ hs hk2
    intro a b hab hne
    cases e : cmp b a
    · exact absurd (congrArg Prod.fst (cmp_antisymm a b hab e)) hne
    · rfl

/-- Witness of C17 on a table of four entries, enumerated in another order. -/
theorem C17_GetTop_is_sort_and_truncate_witness :
    GetTop 3 [(['w'], 4), (['z'], 1), (['y'], 9), (['x'], 4)] =
      sort_and_truncate 3 [(['x'], 4), (['y'], 9), (['z'], 1), (['w'], 4)] ∧
    List.Perm ([(['x'], 4), (['y'], 9), (['z'], 1), (['w'], 4)].insertionSort cmp_ge)
      [(['x'], 4), (['y'], 9), (['z'], 1), (['w'], 4)] ∧
    List.Pairwise (fun a b => cmp b a = true)
      ([(['x'], 4), (['y'], 9), (['z'], 1), (['w'], 4)].insertionSort cmp_ge) :=
  C17_GetTop_is_sort_and_truncate 3 [(['x'], 4), (['y'], 9), (['z'], 1), (['w'], 4)]
    [(['w'], 4), (['z'], 1), (['y'], 9), (['x'], 4)] (by decide) (by decide)

/-- C18: with the default pattern, for every input text, every domain that
`FindDomainsAndNames` counts on a newly constructed object is a non-empty
string whose characters are ASCII letters (codes 97-122 and 65-90), digits
(codes 48-57), dots or hyphens. -/
theorem C18_domain_characters (input : List Char) (n : Nat) (k : List Char)
    (hk : k ∈ keys (FindDomainsAndNames (DomainPathCounter.new input url_re n)).domains_) :
    k ≠ [] ∧
    ∀ c ∈ k, (97 ≤ c.toNat ∧ c.toNat ≤ 122) ∨ (65 ≤ c.toNat ∧ c.toNat ≤ 90) ∨
      (48 ≤ c.toNat ∧ c.toNat ≤ 57) ∨ c = '.' ∨ c = '-' := by
  have hs : FindDomainsAndNames (DomainPathCounter.new input url_re n) =
      ((scanned_lines input).flatMap url_re).foldl count_match
        (DomainPathCounter.new input url_re n) :=
    FindDomainsAndNames_eq_foldl _
  rw [hs, foldl_count_match_domains] at hk
  rcases mem_keys_foldl_increment _ k _ hk with e | e
  · obtain ⟨m, hm, rfl⟩ := List.mem_map.mp e
    obtain ⟨line, _, hml⟩ := List.mem_flatMap.mp hm
    obtain ⟨h1, h2⟩ := url_re_domain line m hml
    exact ⟨h1, fun c hc => (is_domain_char_iff c).mp (h2 c hc)⟩
  · simp [DomainPathCounter.new, keys] at e

/-- Witness of C18 on a text with one url. -/
theorem C18_domain_characters_witness :
    "a-1.Com".toList ∈
      keys (FindDomainsAndNames (DomainPathCounter.new "x http://a-1.Com/p\n".toList url_re 1)).domains_ ∧
    "a-1.Com".toList ≠ [] ∧
    ∀ c ∈ "a-1.Com".toList, (97 ≤ c.toNat ∧ c.toNat ≤ 122) ∨ (65 ≤ c.toNat ∧ c.toNat ≤ 90) ∨
      (48 ≤ c.toNat ∧ c.toNat ≤ 57) ∨ c = '.' ∨ c = '-' :=
  ⟨by decide,
   C18_domain_characters "x http://a-1.Com/p\n".toList 1 "a-1.Com".toList (by decide)⟩

/-- C19: the comparator `cmp` of `GetTop` is irreflexive and transitive, and of
two entries with different keys exactly one is smaller than the other. -/
theorem C19_cmp_strict_total_order :
    (∀ x : CountElem, cmp x x = false) ∧
    (∀ x y z : CountElem, cmp x y = true → cmp y z = true → cmp x z = true) ∧
    (∀ x y : CountElem, x.1 ≠ y.1 →
      (cmp x y = true ∧ cmp y x = false) ∨ (cmp x y = false ∧ cmp y x = true)) := by
  refine ⟨?_, cmp_trans, ?_⟩
  · intro x
    cases e : cmp x x
    · rfl
    · have := cmp_asymm x x e
      rw [e] at this
      cases this
  · intro x y hne
    cases e1 : cmp x y
    · cases e2 : cmp y x
      · exact absurd (congrArg Prod.fst (cmp_antisymm x y e1 e2)) hne
      · exact Or.inr ⟨rfl, rfl⟩
    · exact Or.inl ⟨rfl, cmp_asymm x y e1⟩

/-- Witness of C19 on three entries with the counts 5, 5 and 7. -/
theorem C19_cmp_strict_total_order_witness :
    cmp (['b'], 5) (['a'], 7) = true ∧
    ((cmp (['b'], 5) (['a'], 5) = true ∧ cmp (['a'], 5) (['b'], 5) = false) ∨
      (cmp (['b'], 5) (['a'], 5) = false ∧ cmp (['a'], 5) (['b'], 5) = true)) :=
  ⟨C19_cmp_strict_total_order.2.1 (['b'], 5) (['a'], 5) (['a'], 7) (by decide) (by decide),
   C19_cmp_strict_total_order.2.2 (['b'], 5) (['a'], 5) (by decide)⟩

/-- C20: for every pattern, every `N` and every two input texts made of the
same newline-terminated lines in a different order, `GetStats` on newly
constructed objects returns the same report. -/
theorem C20_report_independent_of_line_order (re : Regex) (n : Nat)
    (lines1 lines2 : List (List Char)) (hnl : ∀ l ∈ lines1, '\n' ∉ l)
    (hperm : List.Perm lines1 lines2) :
    (GetStats (DomainPathCounter.new (join_lines lines1) re n)).2 =
      (GetStats (DomainPathCounter.new (join_lines lines2) re n)).2 := by
  have hnl2 : ∀ l ∈ lines2, '\n' ∉ l := fun l hl => hnl l (hperm.symm.subset hl)
  apply GetStats_report_perm
  rw [scanned_lines_join_lines lines1 hnl, scanned_lines_join_lines lines2 hnl2]
  exact List.Perm.flatMap_right re (hperm.append_right [[]])

/-- Witness of C20 on a text of three lines and the same lines in another
order. -/
theorem C20_report_independent_of_line_order_witness :
    (GetStats (DomainPathCounter.new
      (join_lines ["http://a.com/x".toList, "no url".toList, "http://b.com http://a.com".toList])
      url_re 2)).2 =
    (GetStats (DomainPathCounter.new
      (join_lines ["http://b.com http://a.com".toList, "http://a.com/x".toList, "no url".toList])
      url_re 2)).2 :=
  C20_report_independent_of_line_order url_re 2
    ["http://a.com/x".toList, "no url".toList, "http://b.com http://a.com".toList]
    ["http://b.com http://a.com".toList, "http://a.com/x".toList, "no url".toList]
    (by decide) (by decide)

end DomainPathCounter
